import Mathlib

/-!
# PathtracerRT: GPU profiler and utility helpers

A shallow embedding of `include/GPUProfiler.{h,cpp}` and of the helpers
`Utils::NextPowerOfTwo` and `Utils::ExtractPath` of `src/Utils.cpp`.

* `UINT64` values are natural numbers, with `% 2^64` wherever the source can wrap.
* `double` values are IEEE 754 binary64 numbers (`Double`), with round-to-nearest,
  ties-to-even arithmetic implemented on integers.
* Strings are lists of code units; Direct3D objects are handles (natural numbers); a command
  list is the list of commands recorded into it.
-/

/-! ## `double` arithmetic -/

/-- A `double` (IEEE 754 binary64). `finite sign m e` stands for `(-1)^sign * m * 2^e`; the
arithmetic below produces `m < 2^53` and `-1074 ≤ e ≤ 971`, with `2^52 ≤ m` unless
`e = -1074` (subnormal numbers and zero). -/
inductive Double where
  | finite (sign : Bool) (m : Nat) (e : Int)
  | inf (sign : Bool)
  | nan
  deriving DecidableEq

namespace Double

/-- Binary digits of `n`, counted with `fuel` halving steps. -/
def bitLengthAux : Nat → Nat → Nat
  | 0, _ => 0
  | fuel + 1, n => if n = 0 then 0 else bitLengthAux fuel (n / 2) + 1

/-- Number of binary digits of `n` (`0` for `0`). -/
def bitLength (n : Nat) : Nat := bitLengthAux n n

/-- Numerator and denominator of `n / d * 2^sh`. -/
def scale (n d : Nat) (sh : Int) : Nat × Nat :=
  if 0 ≤ sh then (n * 2 ^ sh.toNat, d) else (n, d * 2 ^ (-sh).toNat)

/-- The integer `k` with `2^k ≤ n / d < 2^(k+1)`, for positive `n` and `d`. -/
def ilog2 (n d : Nat) : Int :=
  let k0 : Int := (bitLength n : Int) - (bitLength d : Int)
  let ab := scale n d (-k0)
  if ab.2 ≤ ab.1 then k0 else k0 - 1

/-- The integer nearest to `num / den`, ties going to the even neighbour. -/
def roundHalfEven (num den : Nat) : Nat :=
  let q := num / den
  let r := num % den
  if den < 2 * r ∨ (2 * r = den ∧ q % 2 = 1) then q + 1 else q

/-- Exponent of the unit in the last place of the `double`s around `(n / d) * 2^x`: 52 below
the exponent of the value, but not below `-1074`, where the subnormal numbers start. -/
def quantum (n d : Nat) (x : Int) : Int :=
  let k : Int := ilog2 n d
  if k + x - 52 < -1074 then -1074 else k + x - 52

/-- The `double` with significand `m ≤ 2^53` at the exponent `E`: a carry out of the 53 bits
moves to the next exponent, and an exponent above `971` overflows to infinity. -/
def pack (sign : Bool) (m : Nat) (E : Int) : Double :=
  let mE : Nat × Int := if m = 2 ^ 53 then (2 ^ 52, E + 1) else (m, E)
  if 971 < mE.2 then inf sign else finite sign mE.1 mE.2

/-- Round the exact value `(-1)^sign * (n / d) * 2^x` (with `d > 0`) to the nearest `double`,
ties to even, with gradual underflow and overflow to infinity. -/
def round (sign : Bool) (n d : Nat) (x : Int) : Double :=
  if n = 0 then finite sign 0 (-1074)
  else
    let E : Int := quantum n d x
    let nd := scale n d (x - E)
    pack sign (roundHalfEven nd.1 nd.2) E

/-- The `double` nearest to a natural number; the value of a literal such as `1000.0`. -/
def ofNat (n : Nat) : Double := round false n 1 0

/-- The conversion `static_cast<double>(v)` of a `UINT64`. -/
def ofUInt64 (v : Nat) : Double := ofNat v

/-- The literal `0.0`. -/
def zero : Double := finite false 0 (-1074)

/-- The quotient `a / b` of two `double`s. -/
def div : Double → Double → Double
  | nan, _ => nan
  | _, nan => nan
  | inf _, inf _ => nan
  | inf s1, finite s2 _ _ => inf (xor s1 s2)
  | finite s1 _ _, inf s2 => finite (xor s1 s2) 0 (-1074)
  | finite s1 m1 e1, finite s2 m2 e2 =>
    if m2 = 0 then (if m1 = 0 then nan else inf (xor s1 s2))
    else round (xor s1 s2) m1 m2 (e1 - e2)

/-- The product `a * b` of two `double`s. -/
def mul : Double → Double → Double
  | nan, _ => nan
  | _, nan => nan
  | inf s1, inf s2 => inf (xor s1 s2)
  | inf s1, finite s2 m2 _ => if m2 = 0 then nan else inf (xor s1 s2)
  | finite s1 m1 _, inf s2 => if m1 = 0 then nan else inf (xor s1 s2)
  | finite s1 m1 e1, finite s2 m2 e2 => round (xor s1 s2) (m1 * m2) 1 (e1 + e2)

/-- The integer `(-1)^s * m`. -/
def signed (s : Bool) (m : Nat) : Int := if s then -(m : Int) else (m : Int)

/-- The sum `a + b` of two `double`s. -/
def add : Double → Double → Double
  | nan, _ => nan
  | _, nan => nan
  | inf s1, inf s2 => if s1 = s2 then inf s1 else nan
  | inf s1, finite _ _ _ => inf s1
  | finite _ _ _, inf s2 => inf s2
  | finite s1 m1 e1, finite s2 m2 e2 =>
    let e : Int := if e1 ≤ e2 then e1 else e2
    let t : Int := signed s1 (m1 * 2 ^ (e1 - e).toNat) + signed s2 (m2 * 2 ^ (e2 - e).toNat)
    if t = 0 then finite (s1 && s2) 0 (-1074)
    else round (decide (t < 0)) t.natAbs 1 e

/-- The comparison `a < 0.0`. -/
def isNegative : Double → Bool
  | finite s m _ => s && decide (m ≠ 0)
  | inf s => s
  | nan => false

/-- The exact value of a finite `double`, as a rational number. -/
def toRat : Double → Option ℚ
  | finite s m e => some ((if s then -1 else 1) * (m : ℚ) * (2 : ℚ) ^ e)
  | inf _ => none
  | nan => none

end Double

/-! ## Direct3D 12 objects seen by the profiler -/

/-- The test `SUCCEEDED(hr)` on an `HRESULT`. -/
def SUCCEEDED (hr : Int) : Bool := decide (0 ≤ hr)

/-- The enumeration `D3D12_QUERY_TYPE`. -/
inductive D3D12_QUERY_TYPE where
  | OCCLUSION
  | BINARY_OCCLUSION
  | TIMESTAMP
  | PIPELINE_STATISTICS
  deriving DecidableEq

/-- A command recorded into an `ID3D12GraphicsCommandList`, with the arguments of the call. -/
inductive Command where
  | EndQuery (queryHeap : Nat) (type : D3D12_QUERY_TYPE) (index : Nat)
  | ResolveQueryData (queryHeap : Nat) (type : D3D12_QUERY_TYPE) (startIndex : Nat)
      (numQueries : Nat) (destinationBuffer : Nat) (alignedDestinationBufferOffset : Nat)
  deriving DecidableEq

/-- The command stream: the commands recorded so far into the command list handed to the
profiler, and the command lists that have been submitted to the command queue. -/
structure CommandStream where
  commandList : List Command
  submitted : List (List Command)
  deriving DecidableEq

/-- Answers of the Direct3D 12 runtime to the three calls of `GPUProfiler::Initialize`: the
returned `HRESULT` and the value written through the out-parameter. -/
structure Runtime where
  CreateQueryHeap : Int × Nat
  CreateCommittedResource : Int × Nat
  GetTimestampFrequency : Int × Nat

/-- The data members of `class GPUProfiler`; pointers are handles, `0` being `nullptr`. -/
structure GPUProfiler where
  device : Nat
  commandQueue : Nat
  queryHeap : Nat
  readbackBuffer : Nat
  frequency : Nat
  accumulatedTime : Double
  deriving DecidableEq

namespace GPUProfiler

/-- `GPUProfiler::Initialize`. An `assert` that fails ends the program: the result is `none`. -/
def Initialize (rt : Runtime) (p : GPUProfiler) : Option GPUProfiler :=
  let hr := rt.CreateQueryHeap.1
  if !SUCCEEDED hr then none
  else
    let p := { p with queryHeap := rt.CreateQueryHeap.2 }
    let hr := rt.CreateCommittedResource.1
    if !SUCCEEDED hr then none
    else
      let p := { p with readbackBuffer := rt.CreateCommittedResource.2 }
      let hr := rt.GetTimestampFrequency.1
      let p := { p with frequency := rt.GetTimestampFrequency.2 }
      if !SUCCEEDED hr then none else some p

/-- The constructor `GPUProfiler::GPUProfiler(device, commandQueue)`. -/
def ctor (rt : Runtime) (device commandQueue : Nat) : Option GPUProfiler :=
  Initialize rt
    { device := device, commandQueue := commandQueue, queryHeap := 0, readbackBuffer := 0,
      frequency := 0, accumulatedTime := Double.zero }

/-- `GPUProfiler::BeginQuery(commandList)`. -/
def BeginQuery (p : GPUProfiler) (cs : CommandStream) : GPUProfiler × CommandStream :=
  (p, { cs with
    commandList := cs.commandList ++ [Command.EndQuery p.queryHeap D3D12_QUERY_TYPE.TIMESTAMP 0] })

/-- `GPUProfiler::EndQueryAndResolve(commandList)`. -/
def EndQueryAndResolve (p : GPUProfiler) (cs : CommandStream) : GPUProfiler × CommandStream :=
  let cs := { cs with
    commandList := cs.commandList ++ [Command.EndQuery p.queryHeap D3D12_QUERY_TYPE.TIMESTAMP 1] }
  let cs := { cs with
    commandList := cs.commandList ++
      [Command.ResolveQueryData p.queryHeap D3D12_QUERY_TYPE.TIMESTAMP 0 2 p.readbackBuffer 0] }
  (p, cs)

/-- `GPUProfiler::GetElapsedTime(accumulate)`. `mappedData i` is the `UINT64` in slot `i` of
the mapped readback buffer; the result is the returned time and the profiler afterwards. -/
def GetElapsedTime (p : GPUProfiler) (mappedData : Nat → Nat) (accumulate : Bool) :
    Double × GPUProfiler :=
  let startTimestamp := mappedData 0
  let endTimestamp := mappedData 1
  let time :=
    Double.mul
      (Double.div (Double.ofUInt64 ((endTimestamp + 2 ^ 64 - startTimestamp) % 2 ^ 64))
        (Double.ofUInt64 p.frequency))
      (Double.ofNat 1000)
  let p := if accumulate then { p with accumulatedTime := Double.add p.accumulatedTime time } else p
  (time, p)

/-- `GetElapsedTime()` with the default argument `accumulate = false` of the header. -/
def GetElapsedTimeDefault (p : GPUProfiler) (mappedData : Nat → Nat) : Double × GPUProfiler :=
  GetElapsedTime p mappedData false

/-- `GPUProfiler::Reset`. The result is the average whose decimal rendering the message box
shows, and the profiler afterwards. -/
def Reset (p : GPUProfiler) : Double × GPUProfiler :=
  let averageTime := Double.div p.accumulatedTime (Double.ofNat 10000)
  (averageTime, { p with accumulatedTime := Double.zero })

/-- The profiler after `n` calls of `GetElapsedTime(true)` on the same readback contents. -/
def accumulateCalls (p : GPUProfiler) (mappedData : Nat → Nat) : Nat → GPUProfiler
  | 0 => p
  | n + 1 => (GetElapsedTime (accumulateCalls p mappedData n) mappedData true).2

end GPUProfiler

/-! ## `Utils` -/

namespace Utils

/-- `UINT64 NextPowerOfTwo(UINT64 v)`. -/
def NextPowerOfTwo (v : Nat) : Nat :=
  let v := (v + 2 ^ 64 - 1) % 2 ^ 64
  let v := v ||| (v >>> 1)
  let v := v ||| (v >>> 2)
  let v := v ||| (v >>> 4)
  let v := v ||| (v >>> 8)
  let v := v ||| (v >>> 16)
  let v := v ||| (v >>> 32)
  (v + 1) % 2 ^ 64

/-- Library function `wcsrchr`: offset of the last occurrence of `c` in the NUL-terminated
string stored in `s` (the terminator counts as part of the string), or `none` for a null
result. -/
def wcsrchr : List Nat → Nat → Option Nat
  | [], c => if c = 0 then some 0 else none
  | x :: xs, c =>
    if x = 0 then (if c = 0 then some 0 else none)
    else
      match wcsrchr xs c with
      | some j => some (j + 1)
      | none => if x = c then some 0 else none

/-- Library function `strrchr`, the narrow-character counterpart of `wcsrchr`. -/
def strrchr : List Nat → Nat → Option Nat
  | [], c => if c = 0 then some 0 else none
  | x :: xs, c =>
    if x = 0 then (if c = 0 then some 0 else none)
    else
      match strrchr xs c with
      | some j => some (j + 1)
      | none => if x = c then some 0 else none

/-- `std::wstring ExtractPath(std::wstring filePath)`. Strings are lists of code units: `92`
is the backslash, `47` the forward slash and `46` the dot. -/
def ExtractPath_wstring (filePath : List Nat) : List Nat :=
  let lastSlash := wcsrchr filePath 92
  let lastForwardSlash := wcsrchr filePath 47
  let lastSlash :=
    match lastForwardSlash, lastSlash with
    | some f, none => some f
    | some f, some b => if b < f then some f else some b
    | none, ls => ls
  match lastSlash with
  | none => [46, 92]
  | some k => filePath.take (k + 1)

/-- `std::string ExtractPath(std::string filePath)`. -/
def ExtractPath_string (filePath : List Nat) : List Nat :=
  let lastSlash := strrchr filePath 92
  let lastForwardSlash := strrchr filePath 47
  let lastSlash :=
    match lastForwardSlash, lastSlash with
    | some f, none => some f
    | some f, some b => if b < f then some f else some b
    | none, ls => ls
  match lastSlash with
  | none => [46, 92]
  | some k => filePath.take (k + 1)

/-- The six or-shift steps of `NextPowerOfTwo`, applied to the decremented argument. -/
def smear (w : Nat) : Nat :=
  let v := w
  let v := v ||| (v >>> 1)
  let v := v ||| (v >>> 2)
  let v := v ||| (v >>> 4)
  let v := v ||| (v >>> 8)
  let v := v ||| (v >>> 16)
  let v := v ||| (v >>> 32)
  v

end Utils

/-! ## Lemmas on `double` arithmetic -/

namespace Double

theorem bitLengthAux_spec (fuel n : Nat) (h : n ≤ fuel) :
    n < 2 ^ bitLengthAux fuel n ∧ (n ≠ 0 → 2 ^ bitLengthAux fuel n ≤ 2 * n) := by
  induction fuel generalizing n with
  | zero =>
    have : n = 0 := by omega
    subst this
    simp [bitLengthAux]
  | succ fuel ih =>
    by_cases hn : n = 0
    · subst hn; simp [bitLengthAux]
    · have hlt : n / 2 ≤ fuel := by omega
      obtain ⟨h1, h2⟩ := ih (n / 2) hlt
      simp only [bitLengthAux, hn, if_false, pow_succ]
      constructor
      · omega
      · intro _
        by_cases hn2 : n / 2 = 0
        · have h1n : n = 1 := by omega
          subst h1n
          cases fuel <;> simp [bitLengthAux]
        · have := h2 hn2
          omega

theorem bitLength_lt (n : Nat) : n < 2 ^ bitLength n :=
  (bitLengthAux_spec n n (le_refl n)).1

theorem bitLength_le (n : Nat) (hn : 0 < n) : 2 ^ bitLength n ≤ 2 * n :=
  (bitLengthAux_spec n n (le_refl n)).2 (by omega)

theorem scale_snd_pos (n d : Nat) (sh : Int) (hd : 0 < d) : 0 < (scale n d sh).2 := by
  unfold scale
  split
  · exact hd
  · exact Nat.mul_pos hd (by positivity)

/-- The pair computed by `scale` represents `n / d * 2^sh`. -/
theorem scale_val (n d : Nat) (sh : Int) (hd : 0 < d) :
    ((scale n d sh).1 : ℚ) / ((scale n d sh).2 : ℚ) = (n : ℚ) / (d : ℚ) * (2 : ℚ) ^ sh := by
  have hdq : (d : ℚ) ≠ 0 := by exact_mod_cast (Nat.pos_iff_ne_zero.mp hd)
  unfold scale
  split
  · rename_i h
    obtain ⟨k, rfl⟩ := Int.eq_ofNat_of_zero_le h
    simp only [Int.toNat_ofNat, Nat.cast_mul, Nat.cast_pow, Nat.cast_ofNat, zpow_natCast]
    field_simp
  · rename_i h
    obtain ⟨k, hk⟩ := Int.eq_ofNat_of_zero_le (show (0 : Int) ≤ -sh by omega)
    have hsh : sh = -(k : Int) := by omega
    subst hsh
    simp only [neg_neg, Int.toNat_ofNat, Nat.cast_mul, Nat.cast_pow, Nat.cast_ofNat, zpow_neg,
      zpow_natCast]
    field_simp

/-- Comparison of the two components of `scale` against a power of two. -/
theorem scale_le_iff (n d : Nat) (sh : Int) (hd : 0 < d) (c : Nat) :
    c * (scale n d sh).2 ≤ (scale n d sh).1 ↔ (c : ℚ) ≤ (n : ℚ) / (d : ℚ) * (2 : ℚ) ^ sh := by
  have hpos : (0 : ℚ) < ((scale n d sh).2 : ℚ) := by exact_mod_cast scale_snd_pos n d sh hd
  rw [← scale_val n d sh hd, le_div_iff₀ hpos]
  exact_mod_cast Iff.rfl

theorem scale_lt_iff (n d : Nat) (sh : Int) (hd : 0 < d) (c : Nat) :
    (scale n d sh).1 < c * (scale n d sh).2 ↔ (n : ℚ) / (d : ℚ) * (2 : ℚ) ^ sh < (c : ℚ) := by
  have hpos : (0 : ℚ) < ((scale n d sh).2 : ℚ) := by exact_mod_cast scale_snd_pos n d sh hd
  rw [← scale_val n d sh hd, div_lt_iff₀ hpos]
  exact_mod_cast Iff.rfl

/-- The exponent found by `ilog2` brackets the quotient. -/
theorem ilog2_spec (n d : Nat) (hn : 0 < n) (hd : 0 < d) :
    (2 : ℚ) ^ ilog2 n d ≤ (n : ℚ) / (d : ℚ) ∧ (n : ℚ) / (d : ℚ) < (2 : ℚ) ^ (ilog2 n d + 1) := by
  have hdq : (0 : ℚ) < (d : ℚ) := by exact_mod_cast hd
  have hnq : (0 : ℚ) < (n : ℚ) := by exact_mod_cast hn
  have hn1 : (n : ℚ) < (2 : ℚ) ^ (bitLength n : Int) := by
    rw [zpow_natCast]; exact_mod_cast bitLength_lt n
  have hn2 : (2 : ℚ) ^ (bitLength n : Int) ≤ 2 * (n : ℚ) := by
    rw [zpow_natCast]; exact_mod_cast bitLength_le n hn
  have hd1 : (d : ℚ) < (2 : ℚ) ^ (bitLength d : Int) := by
    rw [zpow_natCast]; exact_mod_cast bitLength_lt d
  have hd2 : (2 : ℚ) ^ (bitLength d : Int) ≤ 2 * (d : ℚ) := by
    rw [zpow_natCast]; exact_mod_cast bitLength_le d hd
  have h2 : (2 : ℚ) ≠ 0 := by norm_num
  have hpn : (0 : ℚ) < (2 : ℚ) ^ (bitLength n : Int) := by positivity
  have hpd : (0 : ℚ) < (2 : ℚ) ^ (bitLength d : Int) := by positivity
  -- the quotient lies strictly between 2^(k0-1) and 2^(k0+1)
  have hk0 : (2 : ℚ) ^ ((bitLength n : Int) - (bitLength d : Int)) =
      (2 : ℚ) ^ (bitLength n : Int) / (2 : ℚ) ^ (bitLength d : Int) := zpow_sub₀ h2 _ _
  have hup : (n : ℚ) / (d : ℚ) <
      (2 : ℚ) ^ ((bitLength n : Int) - (bitLength d : Int) + 1) := by
    rw [zpow_add_one₀ h2, hk0, div_lt_iff₀ hdq]
    have : (2 : ℚ) ^ (bitLength n : Int) / (2 : ℚ) ^ (bitLength d : Int) * 2 * (d : ℚ) =
        (2 : ℚ) ^ (bitLength n : Int) * (2 * (d : ℚ) / (2 : ℚ) ^ (bitLength d : Int)) := by
      field_simp
      ring
    rw [this]
    have h1 : (1 : ℚ) ≤ 2 * (d : ℚ) / (2 : ℚ) ^ (bitLength d : Int) := by
      rw [le_div_iff₀ hpd]; linarith
    nlinarith
  have hlo : (2 : ℚ) ^ ((bitLength n : Int) - (bitLength d : Int) - 1) ≤ (n : ℚ) / (d : ℚ) := by
    rw [zpow_sub_one₀ h2, hk0, le_div_iff₀ hdq]
    have : (2 : ℚ) ^ (bitLength n : Int) / (2 : ℚ) ^ (bitLength d : Int) * 2⁻¹ * (d : ℚ) =
        (2 : ℚ) ^ (bitLength n : Int) / 2 * ((d : ℚ) / (2 : ℚ) ^ (bitLength d : Int)) := by
      field_simp
      ring
    rw [this]
    have h1 : (d : ℚ) / (2 : ℚ) ^ (bitLength d : Int) ≤ 1 := by
      rw [div_le_iff₀ hpd]; linarith
    have h0 : (0 : ℚ) ≤ (d : ℚ) / (2 : ℚ) ^ (bitLength d : Int) := by positivity
    nlinarith
  unfold ilog2
  simp only
  generalize hK : (bitLength n : Int) - (bitLength d : Int) = K at hk0 hup hlo ⊢
  have hp : (0 : ℚ) < (2 : ℚ) ^ K := by positivity
  split
  · rename_i h
    have h' := (scale_le_iff n d (-K) hd 1).mp (by rw [Nat.one_mul]; exact h)
    refine ⟨?_, hup⟩
    rw [Nat.cast_one, zpow_neg, ← div_eq_mul_inv, le_div_iff₀ hp, one_mul] at h'
    exact h'
  · rename_i h
    have h' := (scale_lt_iff n d (-K) hd 1).mp (by rw [Nat.one_mul]; omega)
    refine ⟨hlo, ?_⟩
    rw [Nat.cast_one, zpow_neg, ← div_eq_mul_inv, div_lt_iff₀ hp, one_mul] at h'
    rw [sub_add_cancel]
    exact h'

theorem ilog2_ge (n d : Nat) (hn : 0 < n) (hd : 0 < d) (a : Int)
    (h : (2 : ℚ) ^ a ≤ (n : ℚ) / (d : ℚ)) : a ≤ ilog2 n d := by
  have h1 : (2 : ℚ) ^ a < (2 : ℚ) ^ (ilog2 n d + 1) := lt_of_le_of_lt h (ilog2_spec n d hn hd).2
  have := (zpow_lt_zpow_iff_right₀ (by norm_num : (1 : ℚ) < 2)).mp h1
  omega

theorem ilog2_lt (n d : Nat) (hn : 0 < n) (hd : 0 < d) (b : Int)
    (h : (n : ℚ) / (d : ℚ) < (2 : ℚ) ^ b) : ilog2 n d < b := by
  have h1 : (2 : ℚ) ^ ilog2 n d < (2 : ℚ) ^ b := lt_of_le_of_lt (ilog2_spec n d hn hd).1 h
  exact (zpow_lt_zpow_iff_right₀ (by norm_num : (1 : ℚ) < 2)).mp h1

theorem roundHalfEven_ge (num den lo : Nat) (hden : 0 < den) (h : lo * den ≤ num) :
    lo ≤ roundHalfEven num den := by
  have hq : lo ≤ num / den := (Nat.le_div_iff_mul_le hden).mpr h
  unfold roundHalfEven
  simp only
  split <;> omega

theorem roundHalfEven_le (num den hi : Nat) (hden : 0 < den) (h : num < hi * den) :
    roundHalfEven num den ≤ hi := by
  have hq : num / den < hi := (Nat.div_lt_iff_lt_mul hden).mpr h
  unfold roundHalfEven
  simp only
  split <;> omega

theorem roundHalfEven_exact (q den : Nat) (hden : 0 < den) : roundHalfEven (q * den) den = q := by
  unfold roundHalfEven
  simp only [Nat.mul_div_cancel _ hden, Nat.mul_mod_left]
  rw [if_neg]
  omega


/-- The rounded quotient is within one half of the exact quotient. -/
theorem roundHalfEven_err (num den : Nat) (hden : 0 < den) :
    |((roundHalfEven num den : Nat) : ℚ) - (num : ℚ) / (den : ℚ)| ≤ 1 / 2 := by
  have hdq : (0 : ℚ) < (den : ℚ) := by exact_mod_cast hden
  have hnat : 2 * (roundHalfEven num den * den) ≤ 2 * num + den ∧
      2 * num ≤ 2 * (roundHalfEven num den * den) + den := by
    have hdm := Nat.div_add_mod num den
    have hml := Nat.mod_lt num hden
    unfold roundHalfEven
    simp only
    split
    · rw [Nat.add_mul, Nat.one_mul]
      have := Nat.mul_comm den (num / den)
      constructor <;> omega
    · have := Nat.mul_comm den (num / den)
      constructor <;> omega
  obtain ⟨h1, h2⟩ := hnat
  have h1q : 2 * (((roundHalfEven num den : Nat) : ℚ) * (den : ℚ)) ≤ 2 * (num : ℚ) + (den : ℚ) := by
    exact_mod_cast h1
  have h2q : 2 * (num : ℚ) ≤ 2 * (((roundHalfEven num den : Nat) : ℚ) * (den : ℚ)) + (den : ℚ) := by
    exact_mod_cast h2
  rw [abs_le]
  constructor
  · rw [le_sub_iff_add_le, ← sub_eq_neg_add, sub_le_iff_le_add, div_le_iff₀ hdq]
    linarith
  · rw [sub_le_iff_le_add, ← sub_le_iff_le_add', le_div_iff₀ hdq]
    linarith

/-- Rounding in the normal range, with the error of the result: at most `2^-53` of the value. -/
theorem round_normal_val (s : Bool) (n d : Nat) (x : Int) (hn : 0 < n) (hd : 0 < d)
    (hlo : -1074 ≤ ilog2 n d + x - 52) (hhi : ilog2 n d + x - 52 < 971) :
    ∃ m e, round s n d x = finite s m e ∧ 2 ^ 52 ≤ m ∧ m < 2 ^ 53 ∧
      (e = ilog2 n d + x - 52 ∨ e = ilog2 n d + x - 52 + 1) ∧
      |(m : ℚ) * (2 : ℚ) ^ e - (n : ℚ) / (d : ℚ) * (2 : ℚ) ^ x| ≤
        (2 : ℚ) ^ (-53 : Int) * ((n : ℚ) / (d : ℚ) * (2 : ℚ) ^ x) := by
  obtain ⟨hk1, hk2⟩ := ilog2_spec n d hn hd
  have h2 : (2 : ℚ) ≠ 0 := by norm_num
  have hsh : x - (ilog2 n d + x - 52) = 52 - ilog2 n d := by omega
  have hpk : (0 : ℚ) < (2 : ℚ) ^ ilog2 n d := by positivity
  have hval : (n : ℚ) / (d : ℚ) * (2 : ℚ) ^ (52 - ilog2 n d) =
      (n : ℚ) / (d : ℚ) / (2 : ℚ) ^ ilog2 n d * 2 ^ 52 := by
    rw [zpow_sub₀ h2]
    have : (2 : ℚ) ^ (52 : Int) = 2 ^ 52 := by norm_cast
    rw [this]; field_simp
  have hge1 : (1 : ℚ) ≤ (n : ℚ) / (d : ℚ) / (2 : ℚ) ^ ilog2 n d := by
    rw [le_div_iff₀ hpk]; linarith
  have hb := scale_snd_pos n d (52 - ilog2 n d) hd
  have hm1 : 2 ^ 52 ≤ roundHalfEven (scale n d (52 - ilog2 n d)).1 (scale n d (52 - ilog2 n d)).2 := by
    apply roundHalfEven_ge _ _ _ hb
    rw [scale_le_iff n d _ hd, hval]
    push_cast
    nlinarith
  have hm2 : roundHalfEven (scale n d (52 - ilog2 n d)).1 (scale n d (52 - ilog2 n d)).2 ≤ 2 ^ 53 := by
    apply roundHalfEven_le _ _ _ hb
    rw [scale_lt_iff n d _ hd, hval]
    have : (n : ℚ) / (d : ℚ) / (2 : ℚ) ^ ilog2 n d < 2 := by
      rw [div_lt_iff₀ hpk]
      rw [zpow_add_one₀ h2] at hk2
      linarith
    push_cast
    nlinarith
  have herr := roundHalfEven_err (scale n d (52 - ilog2 n d)).1 (scale n d (52 - ilog2 n d)).2 hb
  rw [scale_val n d _ hd] at herr
  -- the error at the scale of the value
  have hE : (0 : ℚ) < (2 : ℚ) ^ (ilog2 n d + x - 52) := by positivity
  have hVs : (n : ℚ) / (d : ℚ) * (2 : ℚ) ^ (52 - ilog2 n d) * (2 : ℚ) ^ (ilog2 n d + x - 52) =
      (n : ℚ) / (d : ℚ) * (2 : ℚ) ^ x := by
    rw [mul_assoc, ← zpow_add₀ h2]
    congr 2
    omega
  have hV52 : (2 : ℚ) ^ (52 : Int) ≤ (n : ℚ) / (d : ℚ) * (2 : ℚ) ^ (52 - ilog2 n d) := by
    rw [hval]
    have : (2 : ℚ) ^ (52 : Int) = 2 ^ 52 := by norm_cast
    rw [this]
    nlinarith
  have hmain : ∀ m0 : Nat,
      |(m0 : ℚ) - (n : ℚ) / (d : ℚ) * (2 : ℚ) ^ (52 - ilog2 n d)| ≤ 1 / 2 →
      |(m0 : ℚ) * (2 : ℚ) ^ (ilog2 n d + x - 52) - (n : ℚ) / (d : ℚ) * (2 : ℚ) ^ x| ≤
        (2 : ℚ) ^ (-53 : Int) * ((n : ℚ) / (d : ℚ) * (2 : ℚ) ^ x) := by
    intro m0 h
    rw [← hVs, ← sub_mul, abs_mul, abs_of_pos hE, ← mul_assoc]
    apply mul_le_mul_of_nonneg_right _ hE.le
    have h53 : (2 : ℚ) ^ (-53 : Int) * (2 : ℚ) ^ (52 : Int) = 1 / 2 := by
      rw [← zpow_add₀ h2]; norm_num
    have h53pos : (0 : ℚ) < (2 : ℚ) ^ (-53 : Int) := by positivity
    calc |(m0 : ℚ) - (n : ℚ) / (d : ℚ) * (2 : ℚ) ^ (52 - ilog2 n d)| ≤ 1 / 2 := h
      _ = (2 : ℚ) ^ (-53 : Int) * (2 : ℚ) ^ (52 : Int) := h53.symm
      _ ≤ (2 : ℚ) ^ (-53 : Int) * ((n : ℚ) / (d : ℚ) * (2 : ℚ) ^ (52 - ilog2 n d)) :=
        mul_le_mul_of_nonneg_left hV52 h53pos.le
  have hq : quantum n d x = ilog2 n d + x - 52 := by
    unfold quantum
    simp only
    rw [if_neg (by omega)]
  unfold round
  rw [if_neg (by omega)]
  simp only
  rw [hq, hsh]
  have herr2 := hmain _ herr
  generalize roundHalfEven (scale n d (52 - ilog2 n d)).1 (scale n d (52 - ilog2 n d)).2 = m
    at hm1 hm2 herr2
  unfold pack
  by_cases hm : m = 2 ^ 53
  · rw [if_pos hm]
    simp only
    rw [if_neg (by omega)]
    refine ⟨2 ^ 52, _, rfl, le_refl _, by norm_num, Or.inr rfl, ?_⟩
    have hcarry : ((2 ^ 52 : Nat) : ℚ) * (2 : ℚ) ^ (ilog2 n d + x - 52 + 1) =
        ((m : Nat) : ℚ) * (2 : ℚ) ^ (ilog2 n d + x - 52) := by
      rw [hm, zpow_add_one₀ h2]
      push_cast
      ring
    rw [hcarry]
    exact herr2
  · rw [if_neg hm]
    simp only
    rw [if_neg (by omega)]
    exact ⟨m, _, rfl, hm1, by omega, Or.inl rfl, herr2⟩

/-- Rounding a positive value whose exponent stays in the normal range gives a normal number:
a full 53-bit significand at the exponent of the value, or at the next one when rounding
carries. -/
theorem round_normal (s : Bool) (n d : Nat) (x : Int) (hn : 0 < n) (hd : 0 < d)
    (hlo : -1074 ≤ ilog2 n d + x - 52) (hhi : ilog2 n d + x - 52 < 971) :
    ∃ m e, round s n d x = finite s m e ∧ 2 ^ 52 ≤ m ∧ m < 2 ^ 53 ∧
      (e = ilog2 n d + x - 52 ∨ e = ilog2 n d + x - 52 + 1) := by
  obtain ⟨m, e, h1, h2, h3, h4, _⟩ := round_normal_val s n d x hn hd hlo hhi
  exact ⟨m, e, h1, h2, h3, h4⟩

/-- Four roundings in a row (two conversions, a division and a multiplication by `1000`) stay
within `2^-50` of the exact quotient, relatively. -/
theorem rel_chain (d f A B Q R : ℚ) (hd : 0 < d) (hf : 0 < f)
    (hA : |A - d| ≤ (2 : ℚ) ^ (-53 : Int) * d) (hB : |B - f| ≤ (2 : ℚ) ^ (-53 : Int) * f)
    (hQ : |Q - A / B| ≤ (2 : ℚ) ^ (-53 : Int) * (A / B))
    (hR : |R - Q * 1000| ≤ (2 : ℚ) ^ (-53 : Int) * (Q * 1000)) :
    |R - d / f * 1000| ≤ (2 : ℚ) ^ (-50 : Int) * (d / f * 1000) := by
  have h50 : (2 : ℚ) ^ (-50 : Int) = 8 * (2 : ℚ) ^ (-53 : Int) := by norm_num [zpow_neg]
  rw [h50]
  obtain ⟨u, hu⟩ : ∃ u : ℚ, u = (2 : ℚ) ^ (-53 : Int) := ⟨_, rfl⟩
  rw [← hu] at hA hB hQ hR ⊢
  have hu0 : 0 < u := by rw [hu]; positivity
  have hu1 : u < 1 / 2 := by rw [hu]; norm_num [zpow_neg]
  have hup : (1 + u) / (1 - u) * (1 + u) * (1 + u) ≤ 1 + 8 * u := by
    rw [hu]; norm_num [zpow_neg]
  have hdn : 1 - 8 * u ≤ (1 - u) / (1 + u) * (1 - u) * (1 - u) := by
    rw [hu]; norm_num [zpow_neg]
  rw [abs_le] at hA hB hQ hR
  have hX : 0 < d / f := div_pos hd hf
  have hAlo : d * (1 - u) ≤ A := by linarith [hA.1]
  have hAhi : A ≤ d * (1 + u) := by linarith [hA.2]
  have hBlo : f * (1 - u) ≤ B := by linarith [hB.1]
  have hBhi : B ≤ f * (1 + u) := by linarith [hB.2]
  have hfl : 0 < f * (1 - u) := mul_pos hf (by linarith)
  have hfh : 0 < f * (1 + u) := mul_pos hf (by linarith)
  have hdl : 0 < d * (1 - u) := mul_pos hd (by linarith)
  have hApos : 0 < A := lt_of_lt_of_le hdl hAlo
  have hBpos : 0 < B := lt_of_lt_of_le hfl hBlo
  have hABpos : 0 < A / B := div_pos hApos hBpos
  have hABhi : A / B ≤ d / f * ((1 + u) / (1 - u)) := by
    have h := div_le_div₀ (by linarith) hAhi hfl hBlo
    have he : d * (1 + u) / (f * (1 - u)) = d / f * ((1 + u) / (1 - u)) := by
      field_simp
    rw [he] at h
    exact h
  have hABlo : d / f * ((1 - u) / (1 + u)) ≤ A / B := by
    have h := div_le_div₀ hApos.le hAlo hBpos hBhi
    have he : d * (1 - u) / (f * (1 + u)) = d / f * ((1 - u) / (1 + u)) := by
      field_simp
    rw [he] at h
    exact h
  have hQhi : Q ≤ A / B * (1 + u) := by linarith [hQ.2]
  have hQlo : A / B * (1 - u) ≤ Q := by linarith [hQ.1]
  have hQpos : 0 < Q := lt_of_lt_of_le (mul_pos hABpos (by linarith)) hQlo
  have hRhi : R ≤ Q * 1000 * (1 + u) := by linarith [hR.2]
  have hRlo : Q * 1000 * (1 - u) ≤ R := by linarith [hR.1]
  have h1u : 0 ≤ 1 + u := by linarith
  have h1v : 0 ≤ 1 - u := by linarith
  have hQhi2 : Q ≤ d / f * ((1 + u) / (1 - u)) * (1 + u) :=
    le_trans hQhi (mul_le_mul_of_nonneg_right hABhi h1u)
  have hQlo2 : d / f * ((1 - u) / (1 + u)) * (1 - u) ≤ Q :=
    le_trans (mul_le_mul_of_nonneg_right hABlo h1v) hQlo
  have hRhi2 : R ≤ d / f * 1000 * ((1 + u) / (1 - u) * (1 + u) * (1 + u)) := by
    have h := mul_le_mul_of_nonneg_right hQhi2 (by linarith : (0 : ℚ) ≤ 1000 * (1 + u))
    calc R ≤ Q * 1000 * (1 + u) := hRhi
      _ = Q * (1000 * (1 + u)) := by ring
      _ ≤ d / f * ((1 + u) / (1 - u)) * (1 + u) * (1000 * (1 + u)) := h
      _ = d / f * 1000 * ((1 + u) / (1 - u) * (1 + u) * (1 + u)) := by ring
  have hRlo2 : d / f * 1000 * ((1 - u) / (1 + u) * (1 - u) * (1 - u)) ≤ R := by
    have h := mul_le_mul_of_nonneg_right hQlo2 (by linarith : (0 : ℚ) ≤ 1000 * (1 - u))
    calc d / f * 1000 * ((1 - u) / (1 + u) * (1 - u) * (1 - u))
        = d / f * ((1 - u) / (1 + u)) * (1 - u) * (1000 * (1 - u)) := by ring
      _ ≤ Q * (1000 * (1 - u)) := h
      _ = Q * 1000 * (1 - u) := by ring
      _ ≤ R := hRlo
  have hX1000 : 0 ≤ d / f * 1000 := by positivity
  have hup2 := mul_le_mul_of_nonneg_left hup hX1000
  have hdn2 := mul_le_mul_of_nonneg_left hdn hX1000
  rw [abs_le]
  constructor <;> linarith

theorem ofNat_1000 : ofNat 1000 = finite false (1000 * 2 ^ 43) (-43) := by decide

theorem ofNat_10000 : ofNat 10000 = finite false (10000 * 2 ^ 39) (-39) := by decide

theorem ofNat_zero : ofNat 0 = zero := rfl

set_option maxRecDepth 4000 in
theorem mul_one_1000 : mul (finite false (2 ^ 52) (-52)) (ofNat 1000) = ofNat 1000 := by decide

theorem mul_zero_1000 : mul (finite false 0 (-1074)) (ofNat 1000) = zero := by decide

theorem ilog2_self (M : Nat) (hM : 0 < M) : ilog2 M M = 0 := by
  have hq : (M : ℚ) / (M : ℚ) = 1 := div_self (by exact_mod_cast hM.ne')
  have h1 := ilog2_ge M M hM hM 0 (by rw [hq]; norm_num)
  have h2 := ilog2_lt M M hM hM 1 (by rw [hq]; norm_num)
  omega

/-- A nonzero significand divided by itself rounds to `1.0`. -/
theorem round_self (s : Bool) (M : Nat) (hM : 0 < M) :
    round s M M 0 = finite s (2 ^ 52) (-52) := by
  have hq : quantum M M 0 = -52 := by
    unfold quantum
    simp only [ilog2_self M hM]
    decide
  unfold round
  rw [if_neg (by omega)]
  simp only [hq]
  have hs : scale M M (0 - -52) = (2 ^ 52 * M, M) := by
    unfold scale
    rw [if_pos (by decide)]
    have : (0 - -52 : Int).toNat = 52 := by decide
    rw [this, Nat.mul_comm]
  rw [hs]
  simp only [roundHalfEven_exact _ _ hM]
  cases s <;> decide


theorem ofUInt64_val (v : Nat) (h0 : 0 < v) (h64 : v < 2 ^ 64) :
    ∃ m e, ofUInt64 v = finite false m e ∧ 2 ^ 52 ≤ m ∧ m < 2 ^ 53 ∧ -52 ≤ e ∧ e ≤ 12 ∧
      |(m : ℚ) * (2 : ℚ) ^ e - (v : ℚ)| ≤ (2 : ℚ) ^ (-53 : Int) * (v : ℚ) := by
  have hv1 : (2 : ℚ) ^ (0 : Int) ≤ (v : ℚ) / ((1 : Nat) : ℚ) := by
    simp only [zpow_zero, Nat.cast_one, div_one]
    exact_mod_cast h0
  have hv2 : (v : ℚ) / ((1 : Nat) : ℚ) < (2 : ℚ) ^ (64 : Int) := by
    simp only [Nat.cast_one, div_one]
    have : (2 : ℚ) ^ (64 : Int) = ((2 ^ 64 : Nat) : ℚ) := by norm_cast
    rw [this]
    exact_mod_cast h64
  have hk1 := ilog2_ge v 1 h0 (by decide) 0 hv1
  have hk2 := ilog2_lt v 1 h0 (by decide) 64 hv2
  obtain ⟨m, e, hr, hm1, hm2, he, herr⟩ :=
    round_normal_val false v 1 0 h0 (by decide) (by omega) (by omega)
  refine ⟨m, e, hr, hm1, hm2, by omega, by omega, ?_⟩
  simpa only [Nat.cast_one, div_one, zpow_zero, mul_one] using herr

theorem ofUInt64_normal (v : Nat) (h0 : 0 < v) (h64 : v < 2 ^ 64) :
    ∃ m e, ofUInt64 v = finite false m e ∧ 2 ^ 52 ≤ m ∧ m < 2 ^ 53 ∧ -52 ≤ e ∧ e ≤ 12 := by
  obtain ⟨m, e, h1, h2, h3, h4, h5, _⟩ := ofUInt64_val v h0 h64
  exact ⟨m, e, h1, h2, h3, h4, h5⟩

theorem div_val (m1 m2 : Nat) (e1 e2 : Int) (h1 : 2 ^ 52 ≤ m1) (h1' : m1 < 2 ^ 53)
    (h2 : 2 ^ 52 ≤ m2) (h2' : m2 < 2 ^ 53) (he1 : -52 ≤ e1) (he1' : e1 ≤ 12)
    (he2 : -52 ≤ e2) (he2' : e2 ≤ 12) :
    ∃ m e, div (finite false m1 e1) (finite false m2 e2) = finite false m e ∧
      2 ^ 52 ≤ m ∧ m < 2 ^ 53 ∧ -117 ≤ e ∧ e ≤ 13 ∧
      |(m : ℚ) * (2 : ℚ) ^ e - (m1 : ℚ) * (2 : ℚ) ^ e1 / ((m2 : ℚ) * (2 : ℚ) ^ e2)| ≤
        (2 : ℚ) ^ (-53 : Int) * ((m1 : ℚ) * (2 : ℚ) ^ e1 / ((m2 : ℚ) * (2 : ℚ) ^ e2)) := by
  have hm1 : 0 < m1 := by omega
  have hm2 : 0 < m2 := by omega
  have hq2 : (0 : ℚ) < (m2 : ℚ) := by exact_mod_cast hm2
  have hlo : (2 : ℚ) ^ (-1 : Int) ≤ (m1 : ℚ) / (m2 : ℚ) := by
    rw [le_div_iff₀ hq2]
    have : (m2 : ℚ) ≤ 2 * (m1 : ℚ) := by exact_mod_cast (by omega : m2 ≤ 2 * m1)
    norm_num
    linarith
  have hhi : (m1 : ℚ) / (m2 : ℚ) < (2 : ℚ) ^ (1 : Int) := by
    rw [div_lt_iff₀ hq2]
    have : (m1 : ℚ) < 2 * (m2 : ℚ) := by exact_mod_cast (by omega : m1 < 2 * m2)
    norm_num
    linarith
  have hk1 := ilog2_ge m1 m2 hm1 hm2 (-1) hlo
  have hk2 := ilog2_lt m1 m2 hm1 hm2 1 hhi
  obtain ⟨m, e, hr, hmlo, hmhi, he, herr⟩ :=
    round_normal_val false m1 m2 (e1 - e2) hm1 hm2 (by omega) (by omega)
  refine ⟨m, e, ?_, hmlo, hmhi, by omega, by omega, ?_⟩
  · simp only [div, if_neg hm2.ne', Bool.xor_false]
    exact hr
  · have hv : (m1 : ℚ) * (2 : ℚ) ^ e1 / ((m2 : ℚ) * (2 : ℚ) ^ e2) =
        (m1 : ℚ) / (m2 : ℚ) * (2 : ℚ) ^ (e1 - e2) := by
      rw [zpow_sub₀ (by norm_num : (2 : ℚ) ≠ 0)]
      field_simp
    rw [hv]
    exact herr

theorem mul_1000_val (m : Nat) (e : Int) (h1 : 2 ^ 52 ≤ m) (h1' : m < 2 ^ 53)
    (he : -117 ≤ e) (he' : e ≤ 13) :
    ∃ m' e', mul (finite false m e) (ofNat 1000) = finite false m' e' ∧
      2 ^ 52 ≤ m' ∧ m' < 2 ^ 53 ∧ -108 ≤ e' ∧ e' ≤ 24 ∧
      |(m' : ℚ) * (2 : ℚ) ^ e' - (m : ℚ) * (2 : ℚ) ^ e * 1000| ≤
        (2 : ℚ) ^ (-53 : Int) * ((m : ℚ) * (2 : ℚ) ^ e * 1000) := by
  have hN : 0 < m * (1000 * 2 ^ 43) := by positivity
  have hlo : (2 : ℚ) ^ (104 : Int) ≤ ((m * (1000 * 2 ^ 43) : Nat) : ℚ) / ((1 : Nat) : ℚ) := by
    have : (2 : ℚ) ^ (104 : Int) = ((2 ^ 104 : Nat) : ℚ) := by norm_cast
    rw [this, Nat.cast_one, div_one]
    exact_mod_cast (by omega : 2 ^ 104 ≤ m * (1000 * 2 ^ 43))
  have hhi : ((m * (1000 * 2 ^ 43) : Nat) : ℚ) / ((1 : Nat) : ℚ) < (2 : ℚ) ^ (106 : Int) := by
    have : (2 : ℚ) ^ (106 : Int) = ((2 ^ 106 : Nat) : ℚ) := by norm_cast
    rw [this, Nat.cast_one, div_one]
    exact_mod_cast (by omega : m * (1000 * 2 ^ 43) < 2 ^ 106)
  have hk1 := ilog2_ge _ 1 hN (by decide) 104 hlo
  have hk2 := ilog2_lt _ 1 hN (by decide) 106 hhi
  obtain ⟨m', e', hr, hmlo, hmhi, he2, herr⟩ :=
    round_normal_val false (m * (1000 * 2 ^ 43)) 1 (e + -43) hN (by decide) (by omega) (by omega)
  refine ⟨m', e', ?_, hmlo, hmhi, by omega, by omega, ?_⟩
  · rw [ofNat_1000]
    simp only [mul, Bool.xor_false]
    exact hr
  · have hv : ((m * (1000 * 2 ^ 43) : Nat) : ℚ) / ((1 : Nat) : ℚ) * (2 : ℚ) ^ (e + -43) =
        (m : ℚ) * (2 : ℚ) ^ e * 1000 := by
      rw [zpow_add₀ (by norm_num : (2 : ℚ) ≠ 0)]
      push_cast
      have : (2 : ℚ) ^ (-43 : Int) = 1 / 2 ^ 43 := by
        rw [zpow_neg]; norm_num
      rw [this]
      field_simp
      ring
    rw [hv] at herr
    exact herr

/-- The elapsed time of a positive tick count at a positive frequency is a positive normal
number, within `2^-50` (relatively) of the exact value of `d / f * 1000`. -/
theorem elapsed_val (d f : Nat) (hd : 0 < d) (hd64 : d < 2 ^ 64) (hf : 0 < f)
    (hf64 : f < 2 ^ 64) :
    ∃ m e, mul (div (ofUInt64 d) (ofUInt64 f)) (ofNat 1000) = finite false m e ∧
      2 ^ 52 ≤ m ∧ m < 2 ^ 53 ∧ -108 ≤ e ∧ e ≤ 24 ∧
      |(m : ℚ) * (2 : ℚ) ^ e - (d : ℚ) / (f : ℚ) * 1000| ≤
        (2 : ℚ) ^ (-50 : Int) * ((d : ℚ) / (f : ℚ) * 1000) := by
  obtain ⟨m1, e1, hr1, a1, a2, a3, a4, a5⟩ := ofUInt64_val d hd hd64
  obtain ⟨m2, e2, hr2, b1, b2, b3, b4, b5⟩ := ofUInt64_val f hf hf64
  obtain ⟨m3, e3, hr3, c1, c2, c3, c4, c5⟩ := div_val m1 m2 e1 e2 a1 a2 b1 b2 a3 a4 b3 b4
  obtain ⟨m4, e4, hr4, d1, d2, d3, d4, d5⟩ := mul_1000_val m3 e3 c1 c2 c3 c4
  rw [hr1, hr2, hr3, hr4]
  refine ⟨m4, e4, rfl, d1, d2, d3, d4, ?_⟩
  exact rel_chain (d : ℚ) (f : ℚ) _ _ _ _ (by exact_mod_cast hd) (by exact_mod_cast hf)
    a5 b5 c5 d5

theorem elapsed_normal (d f : Nat) (hd : 0 < d) (hd64 : d < 2 ^ 64) (hf : 0 < f)
    (hf64 : f < 2 ^ 64) :
    ∃ m e, mul (div (ofUInt64 d) (ofUInt64 f)) (ofNat 1000) = finite false m e ∧
      2 ^ 52 ≤ m ∧ m < 2 ^ 53 ∧ -108 ≤ e ∧ e ≤ 24 := by
  obtain ⟨m, e, h1, h2, h3, h4, h5, _⟩ := elapsed_val d f hd hd64 hf hf64
  exact ⟨m, e, h1, h2, h3, h4, h5⟩

/-- The elapsed time of a zero tick count at a positive frequency is `0.0`. -/
theorem elapsed_zero (f : Nat) (hf : 0 < f) (hf64 : f < 2 ^ 64) :
    mul (div (ofUInt64 0) (ofUInt64 f)) (ofNat 1000) = zero := by
  obtain ⟨m2, e2, hr2, b1, _, _, _⟩ := ofUInt64_normal f hf hf64
  have hm2 : m2 ≠ 0 := by omega
  rw [hr2]
  have h0 : ofUInt64 0 = finite false 0 (-1074) := rfl
  rw [h0]
  have hd : div (finite false 0 (-1074)) (finite false m2 e2) = finite false 0 (-1074) := by
    simp only [div, if_neg hm2, Bool.xor_false]
    rfl
  rw [hd]
  exact mul_zero_1000

/-- One second: a tick count equal to the frequency gives `1000.0`. -/
theorem elapsed_one_second (f : Nat) (hf : 0 < f) (hf64 : f < 2 ^ 64) :
    mul (div (ofUInt64 f) (ofUInt64 f)) (ofNat 1000) = ofNat 1000 := by
  obtain ⟨m2, e2, hr2, b1, _, _, _⟩ := ofUInt64_normal f hf hf64
  have hm2 : m2 ≠ 0 := by omega
  rw [hr2]
  have hd : div (finite false m2 e2) (finite false m2 e2) = finite false (2 ^ 52) (-52) := by
    simp only [div, if_neg hm2, Bool.xor_false, sub_self]
    exact round_self false m2 (by omega)
  rw [hd]
  exact mul_one_1000

/-- Division by a zero frequency: infinity for a nonzero tick count, NaN for a zero one. -/
theorem elapsed_zero_frequency (d : Nat) (hd64 : d < 2 ^ 64) :
    mul (div (ofUInt64 d) (ofUInt64 0)) (ofNat 1000) = if d = 0 then nan else inf false := by
  have h0 : ofUInt64 0 = finite false 0 (-1074) := rfl
  by_cases hd : d = 0
  · subst hd
    rw [if_pos rfl, h0]
    rfl
  · rw [if_neg hd]
    obtain ⟨m1, e1, hr1, a1, _, _, _⟩ := ofUInt64_normal d (by omega) hd64
    have hm1 : m1 ≠ 0 := by omega
    rw [hr1, h0]
    have hdv : div (finite false m1 e1) (finite false 0 (-1074)) = inf false := by
      simp [div, hm1]
    rw [hdv, ofNat_1000]
    rfl


/-- The sum of two non-negative finite numbers: the exact sum of the aligned significands,
rounded. -/
theorem add_nonneg (m1 m2 : Nat) (e1 e2 : Int) (e0 : Int)
    (he0 : e0 = if e1 ≤ e2 then e1 else e2) :
    add (finite false m1 e1) (finite false m2 e2) =
      if m1 * 2 ^ (e1 - e0).toNat + m2 * 2 ^ (e2 - e0).toNat = 0 then finite false 0 (-1074)
      else round false (m1 * 2 ^ (e1 - e0).toNat + m2 * 2 ^ (e2 - e0).toNat) 1 e0 := by
  subst he0
  unfold add
  simp only [signed, Bool.false_eq_true, if_false, Bool.and_self]
  generalize m1 * 2 ^ (e1 - if e1 ≤ e2 then e1 else e2).toNat = a
  generalize m2 * 2 ^ (e2 - if e1 ≤ e2 then e1 else e2).toNat = b
  by_cases h : a + b = 0
  · rw [if_pos h, if_pos (by omega)]
  · rw [if_neg h, if_neg (by omega)]
    have hd : decide ((a : Int) + (b : Int) < 0) = false := by
      rw [decide_eq_false_iff_not]; omega
    have hn : ((a : Int) + (b : Int)).natAbs = a + b := by omega
    rw [hd, hn]

theorem ilog2_ge_val (n : Nat) (hn : 0 < n) (x a : Int)
    (h : (2 : ℚ) ^ a ≤ (n : ℚ) * (2 : ℚ) ^ x) : a - x ≤ ilog2 n 1 := by
  apply ilog2_ge n 1 hn (by decide)
  have hx : (0 : ℚ) < (2 : ℚ) ^ x := by positivity
  rw [zpow_sub₀ (by norm_num : (2 : ℚ) ≠ 0), Nat.cast_one, div_one, div_le_iff₀ hx]
  exact h

theorem ilog2_lt_val (n : Nat) (hn : 0 < n) (x b : Int)
    (h : (n : ℚ) * (2 : ℚ) ^ x < (2 : ℚ) ^ b) : ilog2 n 1 < b - x := by
  apply ilog2_lt n 1 hn (by decide)
  have hx : (0 : ℚ) < (2 : ℚ) ^ x := by positivity
  rw [zpow_sub₀ (by norm_num : (2 : ℚ) ≠ 0), Nat.cast_one, div_one, lt_div_iff₀ hx]
  exact h

/-- The sum of two non-negative finite numbers whose exact sum lies in the normal range is a
normal number within `2^-53` (relatively) of the exact sum. -/
theorem add_val (m1 m2 : Nat) (e1 e2 : Int)
    (hlo : (2 : ℚ) ^ (-1022 : Int) ≤ (m1 : ℚ) * (2 : ℚ) ^ e1 + (m2 : ℚ) * (2 : ℚ) ^ e2)
    (hhi : (m1 : ℚ) * (2 : ℚ) ^ e1 + (m2 : ℚ) * (2 : ℚ) ^ e2 < (2 : ℚ) ^ (1023 : Int)) :
    ∃ m e, add (finite false m1 e1) (finite false m2 e2) = finite false m e ∧
      2 ^ 52 ≤ m ∧ m < 2 ^ 53 ∧
      |(m : ℚ) * (2 : ℚ) ^ e - ((m1 : ℚ) * (2 : ℚ) ^ e1 + (m2 : ℚ) * (2 : ℚ) ^ e2)| ≤
        (2 : ℚ) ^ (-53 : Int) * ((m1 : ℚ) * (2 : ℚ) ^ e1 + (m2 : ℚ) * (2 : ℚ) ^ e2) := by
  obtain ⟨e0, he0⟩ : ∃ e0 : Int, e0 = if e1 ≤ e2 then e1 else e2 := ⟨_, rfl⟩
  have h01 : e0 ≤ e1 := by rw [he0]; split <;> omega
  have h02 : e0 ≤ e2 := by rw [he0]; split <;> omega
  have h2 : (2 : ℚ) ≠ 0 := by norm_num
  have hsum : (((m1 * 2 ^ (e1 - e0).toNat + m2 * 2 ^ (e2 - e0).toNat : Nat) : ℚ)) * (2 : ℚ) ^ e0 =
      (m1 : ℚ) * (2 : ℚ) ^ e1 + (m2 : ℚ) * (2 : ℚ) ^ e2 := by
    have hk : ∀ ei : Int, e0 ≤ ei →
        ((2 ^ (ei - e0).toNat : Nat) : ℚ) * (2 : ℚ) ^ e0 = (2 : ℚ) ^ ei := by
      intro ei hei
      have : ((2 ^ (ei - e0).toNat : Nat) : ℚ) = (2 : ℚ) ^ (((ei - e0).toNat : Nat) : Int) := by
        rw [zpow_natCast]; norm_cast
      rw [this, ← zpow_add₀ h2]
      congr 1
      omega
    push_cast
    rw [add_mul, mul_assoc, mul_assoc]
    have a1 := hk e1 h01
    have a2 := hk e2 h02
    push_cast at a1 a2
    rw [a1, a2]
  have hpos : (0 : ℚ) < (m1 : ℚ) * (2 : ℚ) ^ e1 + (m2 : ℚ) * (2 : ℚ) ^ e2 :=
    lt_of_lt_of_le (by positivity) hlo
  have hn : 0 < m1 * 2 ^ (e1 - e0).toNat + m2 * 2 ^ (e2 - e0).toNat := by
    rcases Nat.eq_zero_or_pos (m1 * 2 ^ (e1 - e0).toNat + m2 * 2 ^ (e2 - e0).toNat) with h | h
    · rw [h] at hsum
      simp only [Nat.cast_zero, zero_mul] at hsum
      linarith
    · exact h
  rw [add_nonneg m1 m2 e1 e2 e0 he0, if_neg (by omega)]
  rw [← hsum] at hlo hhi ⊢
  have hk1 := ilog2_ge_val _ hn e0 (-1022) hlo
  have hk2 := ilog2_lt_val _ hn e0 1023 hhi
  obtain ⟨m, e, hr, hm1, hm2, _, herr⟩ :=
    round_normal_val false _ 1 e0 hn (by decide) (by omega) (by omega)
  refine ⟨m, e, hr, hm1, hm2, ?_⟩
  simpa only [Nat.cast_one, div_one] using herr

theorem pow_up (k : Nat) (hk : k ≤ 2 ^ 52) :
    (1 + (2 : ℚ) ^ (-53 : Int)) ^ k ≤ 1 + 2 * (k : ℚ) * (2 : ℚ) ^ (-53 : Int) := by
  obtain ⟨u, hu⟩ : ∃ u : ℚ, u = (2 : ℚ) ^ (-53 : Int) := ⟨_, rfl⟩
  rw [← hu]
  have hu0 : 0 < u := by rw [hu]; positivity
  have hu53 : u * 2 ^ 53 = 1 := by rw [hu]; norm_num [zpow_neg]
  induction k with
  | zero => simp
  | succ k ih =>
    have ih := ih (by omega)
    have hkq : (k : ℚ) ≤ 2 ^ 52 := by exact_mod_cast (by omega : k ≤ 2 ^ 52)
    have h1 : 2 * (k : ℚ) * u ≤ 1 := by nlinarith
    rw [pow_succ]
    push_cast
    calc (1 + u) ^ k * (1 + u) ≤ (1 + 2 * (k : ℚ) * u) * (1 + u) :=
          mul_le_mul_of_nonneg_right ih (by linarith)
      _ ≤ 1 + 2 * ((k : ℚ) + 1) * u := by nlinarith

theorem pow_dn (k : Nat) :
    1 - (k : ℚ) * (2 : ℚ) ^ (-53 : Int) ≤ (1 - (2 : ℚ) ^ (-53 : Int)) ^ k := by
  have hu1 : (2 : ℚ) ^ (-53 : Int) ≤ 1 := by norm_num [zpow_neg]
  have h := one_add_mul_le_pow (by linarith : (-2 : ℚ) ≤ -(2 : ℚ) ^ (-53 : Int)) k
  have e1 : 1 + (k : ℚ) * -(2 : ℚ) ^ (-53 : Int) = 1 - (k : ℚ) * (2 : ℚ) ^ (-53 : Int) := by ring
  have e2 : 1 + -(2 : ℚ) ^ (-53 : Int) = 1 - (2 : ℚ) ^ (-53 : Int) := by ring
  rw [e1, e2] at h
  exact h

/-- Adding the same positive normal number `k ≤ 2^52` times, starting from `0.0`: the sum is
a finite non-negative number whose value is `k` times the addend up to the factors
`(1 - 2^-53)^k` and `(1 + 2^-53)^k`. -/
theorem iterate_add_val (mt : Nat) (et : Int) (hm1 : 2 ^ 52 ≤ mt) (hm2 : mt < 2 ^ 53)
    (he1 : -108 ≤ et) (he2 : et ≤ 24) (k : Nat) (hk : k ≤ 2 ^ 52) :
    ∃ m e, Nat.iterate (fun a => add a (finite false mt et)) k zero = finite false m e ∧
      (k : ℚ) * ((mt : ℚ) * (2 : ℚ) ^ et) * (1 - (2 : ℚ) ^ (-53 : Int)) ^ k ≤
        (m : ℚ) * (2 : ℚ) ^ e ∧
      (m : ℚ) * (2 : ℚ) ^ e ≤
        (k : ℚ) * ((mt : ℚ) * (2 : ℚ) ^ et) * (1 + (2 : ℚ) ^ (-53 : Int)) ^ k := by
  obtain ⟨u, hu⟩ : ∃ u : ℚ, u = (2 : ℚ) ^ (-53 : Int) := ⟨_, rfl⟩
  have hu0 : 0 < u := by rw [hu]; positivity
  have hu1 : u ≤ 1 / 2 := by rw [hu]; norm_num [zpow_neg]
  have hu53 : u * 2 ^ 53 = 1 := by rw [hu]; norm_num [zpow_neg]
  -- bounds on the addend
  obtain ⟨T, hT⟩ : ∃ T : ℚ, T = (mt : ℚ) * (2 : ℚ) ^ et := ⟨_, rfl⟩
  have hTlo : (2 : ℚ) ^ (-1022 : Int) ≤ T := by
    have h1 : (2 : ℚ) ^ (52 : Nat) ≤ (mt : ℚ) := by exact_mod_cast hm1
    have h2 : (2 : ℚ) ^ (-108 : Int) ≤ (2 : ℚ) ^ et :=
      zpow_le_zpow_right₀ (by norm_num) he1
    have h3 : (2 : ℚ) ^ (-1022 : Int) ≤ (2 : ℚ) ^ (52 : Nat) * (2 : ℚ) ^ (-108 : Int) := by
      have : (2 : ℚ) ^ (52 : Nat) * (2 : ℚ) ^ (-108 : Int) = (2 : ℚ) ^ (-56 : Int) := by
        rw [← zpow_natCast, ← zpow_add₀ (by norm_num : (2 : ℚ) ≠ 0)]; norm_num
      rw [this]
      exact zpow_le_zpow_right₀ (by norm_num) (by norm_num)
    rw [hT]
    calc (2 : ℚ) ^ (-1022 : Int) ≤ (2 : ℚ) ^ (52 : Nat) * (2 : ℚ) ^ (-108 : Int) := h3
      _ ≤ (mt : ℚ) * (2 : ℚ) ^ et := mul_le_mul h1 h2 (by positivity) (by positivity)
  have hThi : T ≤ (2 : ℚ) ^ (77 : Int) := by
    have h1 : (mt : ℚ) ≤ (2 : ℚ) ^ (53 : Nat) := by exact_mod_cast hm2.le
    have h2 : (2 : ℚ) ^ et ≤ (2 : ℚ) ^ (24 : Int) :=
      zpow_le_zpow_right₀ (by norm_num) he2
    have h3 : (2 : ℚ) ^ (53 : Nat) * (2 : ℚ) ^ (24 : Int) = (2 : ℚ) ^ (77 : Int) := by
      rw [← zpow_natCast, ← zpow_add₀ (by norm_num : (2 : ℚ) ≠ 0)]; norm_num
    rw [hT, ← h3]
    exact mul_le_mul h1 h2 (by positivity) (by positivity)
  have hTpos : 0 < T := lt_of_lt_of_le (by positivity) hTlo
  rw [← hu, ← hT]
  induction k with
  | zero =>
    refine ⟨0, -1074, rfl, ?_, ?_⟩ <;> simp
  | succ k ih =>
    obtain ⟨m, e, hacc, hlo, hhi⟩ := ih (by omega)
    have hkq : (k : ℚ) ≤ 2 ^ 52 := by exact_mod_cast (by omega : k ≤ 2 ^ 52)
    have hk0 : (0 : ℚ) ≤ (k : ℚ) := by positivity
    have hpu := pow_up k (by omega)
    rw [← hu] at hpu
    have hp2 : (1 + u) ^ k ≤ 2 := by nlinarith
    have hp1 : 1 ≤ (1 + u) ^ k := one_le_pow₀ (by linarith)
    have hq0 : 0 ≤ (1 - u) ^ k := pow_nonneg (by linarith) k
    have hq1 : (1 - u) ^ k ≤ 1 := pow_le_one₀ (by linarith) (by linarith)
    have ha0 : 0 ≤ (m : ℚ) * (2 : ℚ) ^ e :=
      le_trans (by positivity) hlo
    have hsumlo : (2 : ℚ) ^ (-1022 : Int) ≤ (m : ℚ) * (2 : ℚ) ^ e + (mt : ℚ) * (2 : ℚ) ^ et := by
      rw [← hT]; linarith
    have hsumhi : (m : ℚ) * (2 : ℚ) ^ e + (mt : ℚ) * (2 : ℚ) ^ et < (2 : ℚ) ^ (1023 : Int) := by
      rw [← hT]
      have hkT : (k : ℚ) * T * (1 + u) ^ k ≤ 2 ^ 52 * (2 : ℚ) ^ (77 : Int) * 2 := by
        have := mul_le_mul hkq hThi hTpos.le (by positivity)
        exact mul_le_mul this hp2 (by positivity) (by positivity)
      have hbig : (2 : ℚ) ^ 52 * (2 : ℚ) ^ (77 : Int) * 2 + (2 : ℚ) ^ (77 : Int) <
          (2 : ℚ) ^ (1023 : Int) := by norm_num
      linarith
    obtain ⟨m', e', hadd, _, _, herr⟩ := add_val m mt e et hsumlo hsumhi
    rw [← hu, ← hT] at herr
    rw [abs_le] at herr
    refine ⟨m', e', ?_, ?_, ?_⟩
    · rw [Function.iterate_succ_apply', hacc]
      exact hadd
    · have h1 : ((m : ℚ) * (2 : ℚ) ^ e + T) * (1 - u) ≤ (m' : ℚ) * (2 : ℚ) ^ e' := by
        linarith [herr.1]
      have h2 : ((k : ℚ) + 1) * T * (1 - u) ^ k ≤ (m : ℚ) * (2 : ℚ) ^ e + T := by
        have : T * (1 - u) ^ k ≤ T := by nlinarith
        linarith
      have h3 := mul_le_mul_of_nonneg_right h2 (by linarith : (0 : ℚ) ≤ 1 - u)
      rw [pow_succ]
      push_cast
      calc ((k : ℚ) + 1) * T * ((1 - u) ^ k * (1 - u))
          = ((k : ℚ) + 1) * T * (1 - u) ^ k * (1 - u) := by ring
        _ ≤ ((m : ℚ) * (2 : ℚ) ^ e + T) * (1 - u) := h3
        _ ≤ (m' : ℚ) * (2 : ℚ) ^ e' := h1
    · have h1 : (m' : ℚ) * (2 : ℚ) ^ e' ≤ ((m : ℚ) * (2 : ℚ) ^ e + T) * (1 + u) := by
        linarith [herr.2]
      have h2 : (m : ℚ) * (2 : ℚ) ^ e + T ≤ ((k : ℚ) + 1) * T * (1 + u) ^ k := by
        have : T ≤ T * (1 + u) ^ k := by nlinarith
        linarith
      have h3 := mul_le_mul_of_nonneg_right h2 (by linarith : (0 : ℚ) ≤ 1 + u)
      rw [pow_succ]
      push_cast
      calc (m' : ℚ) * (2 : ℚ) ^ e' ≤ ((m : ℚ) * (2 : ℚ) ^ e + T) * (1 + u) := h1
        _ ≤ ((k : ℚ) + 1) * T * (1 + u) ^ k * (1 + u) := h3
        _ = ((k : ℚ) + 1) * T * ((1 + u) ^ k * (1 + u)) := by ring

/-- Adding the same positive normal number `k ≤ 2^52` times, starting from `0.0`: the sum
differs from `k` times the addend by at most `k * 2^-52` of that product. -/
theorem iterate_add_err (mt : Nat) (et : Int) (hm1 : 2 ^ 52 ≤ mt) (hm2 : mt < 2 ^ 53)
    (he1 : -108 ≤ et) (he2 : et ≤ 24) (k : Nat) (hk : k ≤ 2 ^ 52) :
    ∃ m e, Nat.iterate (fun a => add a (finite false mt et)) k zero = finite false m e ∧
      |(m : ℚ) * (2 : ℚ) ^ e - (k : ℚ) * ((mt : ℚ) * (2 : ℚ) ^ et)| ≤
        (k : ℚ) * (2 : ℚ) ^ (-52 : Int) * ((k : ℚ) * ((mt : ℚ) * (2 : ℚ) ^ et)) := by
  obtain ⟨m, e, hacc, hlo, hhi⟩ := iterate_add_val mt et hm1 hm2 he1 he2 k hk
  refine ⟨m, e, hacc, ?_⟩
  have hpu := pow_up k hk
  have hpd := pow_dn k
  have h52 : (2 : ℚ) ^ (-52 : Int) = 2 * (2 : ℚ) ^ (-53 : Int) := by norm_num [zpow_neg]
  have hu0 : (0 : ℚ) < (2 : ℚ) ^ (-53 : Int) := by positivity
  have hX : (0 : ℚ) ≤ (k : ℚ) * ((mt : ℚ) * (2 : ℚ) ^ et) := by positivity
  have hk0 : (0 : ℚ) ≤ (k : ℚ) := by positivity
  have h1 := mul_le_mul_of_nonneg_left hpu hX
  have h2 := mul_le_mul_of_nonneg_left hpd hX
  rw [h52, abs_le]
  constructor
  · nlinarith
  · nlinarith

theorem iterate_add_zero (k : Nat) :
    Nat.iterate (fun a => add a (finite false 0 (-1074))) k zero = zero := by
  induction k with
  | zero => rfl
  | succ k ih =>
    rw [Function.iterate_succ_apply', ih]
    decide

end Double

namespace Double

/-- A value that already has a 53-bit significand and an exponent in range is not changed by
rounding. -/
theorem round_exact (s : Bool) (m j : Nat) (x : Int) (hm1 : 2 ^ 52 ≤ m) (hm2 : m < 2 ^ 53)
    (hlo : -1074 ≤ x + j) (hhi : x + j ≤ 971) :
    round s (m * 2 ^ j) 1 x = finite s m (x + j) := by
  have hn : 0 < m * 2 ^ j := by positivity
  have hpow : ((2 ^ j : Nat) : ℚ) = (2 : ℚ) ^ (j : Int) := by
    rw [zpow_natCast]; norm_cast
  have h2 : (2 : ℚ) ≠ 0 := by norm_num
  have hj0 : (0 : ℚ) < (2 : ℚ) ^ (j : Int) := by positivity
  have hge : (2 : ℚ) ^ ((52 : Int) + j) ≤ ((m * 2 ^ j : Nat) : ℚ) / ((1 : Nat) : ℚ) := by
    rw [Nat.cast_one, div_one, Nat.cast_mul, hpow, zpow_add₀ h2]
    have : (2 : ℚ) ^ (52 : Int) ≤ (m : ℚ) := by
      have : (2 : ℚ) ^ (52 : Int) = ((2 ^ 52 : Nat) : ℚ) := by norm_cast
      rw [this]; exact_mod_cast hm1
    exact mul_le_mul_of_nonneg_right this hj0.le
  have hlt : ((m * 2 ^ j : Nat) : ℚ) / ((1 : Nat) : ℚ) < (2 : ℚ) ^ ((53 : Int) + j) := by
    rw [Nat.cast_one, div_one, Nat.cast_mul, hpow, zpow_add₀ h2]
    have : (m : ℚ) < (2 : ℚ) ^ (53 : Int) := by
      have : (2 : ℚ) ^ (53 : Int) = ((2 ^ 53 : Nat) : ℚ) := by norm_cast
      rw [this]; exact_mod_cast hm2
    exact mul_lt_mul_of_pos_right this hj0
  have hk1 := ilog2_ge _ 1 hn (by decide) _ hge
  have hk2 := ilog2_lt _ 1 hn (by decide) _ hlt
  have hk : ilog2 (m * 2 ^ j) 1 = 52 + j := by omega
  have hq : quantum (m * 2 ^ j) 1 x = x + j := by
    unfold quantum
    simp only [hk]
    rw [if_neg (by omega)]
    omega
  have hr : roundHalfEven (scale (m * 2 ^ j) 1 (x - (x + j))).1
      (scale (m * 2 ^ j) 1 (x - (x + j))).2 = m := by
    have hsh : x - (x + (j : Int)) = -(j : Int) := by omega
    rw [hsh]
    unfold scale
    by_cases hj : j = 0
    · subst hj
      simp only [Nat.cast_zero, neg_zero, le_refl, if_true, Int.toNat_zero, pow_zero, Nat.mul_one]
      have h1 := roundHalfEven_exact m 1 (by decide)
      rwa [Nat.mul_one] at h1
    · rw [if_neg (by omega)]
      simp only [neg_neg, Int.toNat_ofNat, Nat.one_mul]
      exact roundHalfEven_exact m (2 ^ j) (by positivity)
  unfold round
  rw [if_neg (by omega)]
  simp only [hq, hr]
  have hne : ¬ m = 2 ^ 53 := by omega
  have hov : ¬ (971 : Int) < x + j := by omega
  simp only [pack, hne, hov, if_false]

/-- Adding a normal non-negative number to `0.0` gives that number. -/
theorem add_zero_left (mt : Nat) (et : Int) (hm1 : 2 ^ 52 ≤ mt) (hm2 : mt < 2 ^ 53)
    (he1 : -1074 ≤ et) (he2 : et ≤ 971) :
    add zero (finite false mt et) = finite false mt et := by
  have he0 : (-1074 : Int) = if (-1074 : Int) ≤ et then -1074 else et := by
    rw [if_pos he1]
  have h := add_nonneg 0 mt (-1074) et (-1074) he0
  rw [Nat.zero_mul, Nat.zero_add] at h
  have hn : mt * 2 ^ (et - -1074).toNat ≠ 0 := by positivity
  rw [if_neg hn] at h
  show add (finite false 0 (-1074)) (finite false mt et) = finite false mt et
  rw [h, round_exact false mt (et - -1074).toNat (-1074) hm1 hm2 (by omega) (by omega)]
  congr 1
  omega

/-- The exact value of a normal number with an exponent between `-108` and `24`. -/
theorem normal_val_bounds (mt : Nat) (et : Int) (hm1 : 2 ^ 52 ≤ mt) (hm2 : mt < 2 ^ 53)
    (he1 : -108 ≤ et) (he2 : et ≤ 24) :
    (2 : ℚ) ^ (-56 : Int) ≤ (mt : ℚ) * (2 : ℚ) ^ et ∧
      (mt : ℚ) * (2 : ℚ) ^ et ≤ (2 : ℚ) ^ (77 : Int) := by
  have h2 : (2 : ℚ) ≠ 0 := by norm_num
  constructor
  · have h1 : (2 : ℚ) ^ (52 : Nat) ≤ (mt : ℚ) := by exact_mod_cast hm1
    have h3 : (2 : ℚ) ^ (-108 : Int) ≤ (2 : ℚ) ^ et := zpow_le_zpow_right₀ (by norm_num) he1
    have h4 : (2 : ℚ) ^ (52 : Nat) * (2 : ℚ) ^ (-108 : Int) = (2 : ℚ) ^ (-56 : Int) := by
      rw [← zpow_natCast, ← zpow_add₀ h2]; norm_num
    rw [← h4]
    exact mul_le_mul h1 h3 (by positivity) (by positivity)
  · have h1 : (mt : ℚ) ≤ (2 : ℚ) ^ (53 : Nat) := by exact_mod_cast hm2.le
    have h3 : (2 : ℚ) ^ et ≤ (2 : ℚ) ^ (24 : Int) := zpow_le_zpow_right₀ (by norm_num) he2
    have h4 : (2 : ℚ) ^ (53 : Nat) * (2 : ℚ) ^ (24 : Int) = (2 : ℚ) ^ (77 : Int) := by
      rw [← zpow_natCast, ← zpow_add₀ h2]; norm_num
    rw [← h4]
    exact mul_le_mul h1 h3 (by positivity) (by positivity)

/-- Adding `0.0` to a non-negative finite number that is zero or lies in the normal range: the
result is within `2^-53` (relatively) of that number. -/
theorem add_zero_right_val (m1 : Nat) (e1 : Int)
    (hA : m1 = 0 ∨ (2 : ℚ) ^ (-1022 : Int) ≤ (m1 : ℚ) * (2 : ℚ) ^ e1)
    (hhi : (m1 : ℚ) * (2 : ℚ) ^ e1 < (2 : ℚ) ^ (1022 : Int)) :
    ∃ m e, add (finite false m1 e1) (finite false 0 (-1074)) = finite false m e ∧
      |(m : ℚ) * (2 : ℚ) ^ e - ((m1 : ℚ) * (2 : ℚ) ^ e1 + ((0 : Nat) : ℚ) * (2 : ℚ) ^ (-1074 : Int))| ≤
        (2 : ℚ) ^ (-53 : Int) *
          ((m1 : ℚ) * (2 : ℚ) ^ e1 + ((0 : Nat) : ℚ) * (2 : ℚ) ^ (-1074 : Int)) := by
  rcases hA with h0 | hlo
  · subst h0
    refine ⟨0, -1074, ?_, by simp⟩
    rw [add_nonneg 0 0 e1 (-1074) _ rfl]
    simp
  · have hlt : (2 : ℚ) ^ (1022 : Int) < (2 : ℚ) ^ (1023 : Int) :=
      zpow_lt_zpow_right₀ (by norm_num) (by norm_num)
    obtain ⟨m, e, hadd, _, _, herr⟩ := add_val m1 0 e1 (-1074)
      (by simpa using hlo) (by simp only [Nat.cast_zero, zero_mul, add_zero]; linarith)
    exact ⟨m, e, hadd, herr⟩

end Double

/-! ## The profiler -/

namespace GPUProfiler

/-- The returned time, as an expression of the two timestamps and the frequency. -/
theorem GetElapsedTime_fst (p : GPUProfiler) (mappedData : Nat → Nat) (accumulate : Bool) :
    (p.GetElapsedTime mappedData accumulate).1 =
      Double.mul
        (Double.div (Double.ofUInt64 ((mappedData 1 + 2 ^ 64 - mappedData 0) % 2 ^ 64))
          (Double.ofUInt64 p.frequency))
        (Double.ofNat 1000) := rfl

theorem GetElapsedTime_frequency (p : GPUProfiler) (mappedData : Nat → Nat) (accumulate : Bool) :
    (p.GetElapsedTime mappedData accumulate).2.frequency = p.frequency := by
  cases accumulate <;> rfl

theorem accumulateCalls_frequency (p : GPUProfiler) (mappedData : Nat → Nat) (n : Nat) :
    (p.accumulateCalls mappedData n).frequency = p.frequency := by
  induction n with
  | zero => rfl
  | succ n ih =>
    show (GetElapsedTime (accumulateCalls p mappedData n) mappedData true).2.frequency = _
    rw [GetElapsedTime_frequency, ih]

/-- The constructor succeeds exactly when the three runtime calls succeed, and then stores
what they returned. -/
theorem ctor_eq (rt : Runtime) (device commandQueue : Nat) :
    ctor rt device commandQueue =
      if (SUCCEEDED rt.CreateQueryHeap.1 && SUCCEEDED rt.CreateCommittedResource.1 &&
          SUCCEEDED rt.GetTimestampFrequency.1) = true then
        some ⟨device, commandQueue, rt.CreateQueryHeap.2, rt.CreateCommittedResource.2,
          rt.GetTimestampFrequency.2, Double.zero⟩
      else none := by
  unfold ctor Initialize
  cases h1 : SUCCEEDED rt.CreateQueryHeap.1 <;>
    cases h2 : SUCCEEDED rt.CreateCommittedResource.1 <;>
    cases h3 : SUCCEEDED rt.GetTimestampFrequency.1 <;> simp [h1, h2, h3]

end GPUProfiler

/-- C1: with `start ≤ end` in slots 0 and 1 of the readback buffer and a stored frequency
`f > 0`, `GetElapsedTime` returns, for either value of `accumulate`, the `double`
`(end - start) / f * 1000`: the tick difference converted to `double`, divided by the converted
frequency and multiplied by `1000.0`. The value is a finite non-negative number, and the four
roundings keep it within `2^-50` (relatively) of the exact quotient. -/
theorem GetElapsedTime_value (p : GPUProfiler) (mappedData : Nat → Nat) (accumulate : Bool)
    (hle : mappedData 0 ≤ mappedData 1) (h64 : mappedData 1 < 2 ^ 64)
    (hf : 0 < p.frequency) (hf64 : p.frequency < 2 ^ 64) :
    (p.GetElapsedTime mappedData accumulate).1 =
        Double.mul
          (Double.div (Double.ofUInt64 (mappedData 1 - mappedData 0))
            (Double.ofUInt64 p.frequency))
          (Double.ofNat 1000) ∧
      ∃ m e, (p.GetElapsedTime mappedData accumulate).1 = Double.finite false m e ∧
        |(m : ℚ) * (2 : ℚ) ^ e -
            ((mappedData 1 : ℚ) - (mappedData 0 : ℚ)) / (p.frequency : ℚ) * 1000| ≤
          (2 : ℚ) ^ (-50 : Int) *
            (((mappedData 1 : ℚ) - (mappedData 0 : ℚ)) / (p.frequency : ℚ) * 1000) := by
  have hd : (mappedData 1 + 2 ^ 64 - mappedData 0) % 2 ^ 64 = mappedData 1 - mappedData 0 := by
    omega
  rw [GPUProfiler.GetElapsedTime_fst, hd, ← Nat.cast_sub hle]
  refine ⟨rfl, ?_⟩
  by_cases h0 : mappedData 1 - mappedData 0 = 0
  · rw [h0, Double.elapsed_zero _ hf hf64]
    refine ⟨0, -1074, rfl, ?_⟩
    simp
  · obtain ⟨m, e, hr, _, _, _, _, herr⟩ :=
      Double.elapsed_val (mappedData 1 - mappedData 0) p.frequency (by omega) (by omega) hf hf64
    exact ⟨m, e, hr, herr⟩

theorem GetElapsedTime_value_witness :
    (3 : Nat) ≤ 5 ∧
      ((⟨0, 0, 1, 2, 4, Double.zero⟩ : GPUProfiler).GetElapsedTime
          (fun i => if i = 0 then 3 else 5) true).1 =
        Double.mul (Double.div (Double.ofUInt64 (5 - 3)) (Double.ofUInt64 4))
          (Double.ofNat 1000) :=
  ⟨by decide,
    (GetElapsedTime_value ⟨0, 0, 1, 2, 4, Double.zero⟩ (fun i => if i = 0 then 3 else 5) true
      (by decide) (by decide) (by decide) (by decide)).1⟩

/-- C2: with `start = 0` and `end = f` in the readback buffer, for a stored frequency `f > 0`,
`GetElapsedTime` returns exactly `1000.0`. -/
theorem GetElapsedTime_one_second (p : GPUProfiler) (mappedData : Nat → Nat) (accumulate : Bool)
    (hs : mappedData 0 = 0) (he : mappedData 1 = p.frequency)
    (hf : 0 < p.frequency) (hf64 : p.frequency < 2 ^ 64) :
    (p.GetElapsedTime mappedData accumulate).1 = Double.ofNat 1000 ∧
      (p.GetElapsedTime mappedData accumulate).1 = Double.finite false (1000 * 2 ^ 43) (-43) ∧
      Double.toRat (p.GetElapsedTime mappedData accumulate).1 = some 1000 := by
  have hd : (mappedData 1 + 2 ^ 64 - mappedData 0) % 2 ^ 64 = p.frequency := by
    omega
  have h1 : (p.GetElapsedTime mappedData accumulate).1 = Double.ofNat 1000 := by
    rw [GPUProfiler.GetElapsedTime_fst, hd]
    exact Double.elapsed_one_second _ hf hf64
  refine ⟨h1, by rw [h1, Double.ofNat_1000], ?_⟩
  rw [h1, Double.ofNat_1000]
  simp only [Double.toRat, Bool.false_eq_true, if_false, Option.some.injEq]
  norm_num [zpow_neg]

theorem GetElapsedTime_one_second_witness :
    ((⟨0, 0, 1, 2, 10000000, Double.zero⟩ : GPUProfiler).GetElapsedTime
        (fun i => if i = 0 then 0 else 10000000) false).1 = Double.ofNat 1000 :=
  (GetElapsedTime_one_second ⟨0, 0, 1, 2, 10000000, Double.zero⟩
    (fun i => if i = 0 then 0 else 10000000) false rfl rfl (by decide) (by decide)).1

set_option maxRecDepth 100000 in
/-- C3 (as stated, refuted): at 1 GHz with 100000 ticks between the timestamps each call
returns `t = 0.1` ms, and six accumulating calls from a zero accumulator leave the `double`
`0.6`, which is neither the `double` product `6 * t` (the next `double` above) nor six times
the exact value of `t`. -/
theorem accumulate_six_not_product :
    ((⟨0, 0, 1, 2, 1000000000, Double.zero⟩ : GPUProfiler).accumulateCalls
          (fun i => if i = 0 then 0 else 100000) 6).accumulatedTime
        = Double.finite false 5404319552844595 (-53) ∧
      ((⟨0, 0, 1, 2, 1000000000, Double.zero⟩ : GPUProfiler).GetElapsedTime
          (fun i => if i = 0 then 0 else 100000) true).1
        = Double.finite false 7205759403792794 (-56) ∧
      Double.mul (Double.ofNat 6) (Double.finite false 7205759403792794 (-56))
        = Double.finite false 5404319552844596 (-53) ∧
      ((⟨0, 0, 1, 2, 1000000000, Double.zero⟩ : GPUProfiler).accumulateCalls
          (fun i => if i = 0 then 0 else 100000) 6).accumulatedTime
        ≠ Double.mul (Double.ofNat 6)
            ((⟨0, 0, 1, 2, 1000000000, Double.zero⟩ : GPUProfiler).GetElapsedTime
              (fun i => if i = 0 then 0 else 100000) true).1 ∧
      (5404319552844595 : ℚ) * 2 ^ (-53 : Int) ≠ 6 * (7205759403792794 * 2 ^ (-56 : Int)) := by
  refine ⟨by decide!, by decide!, by decide!, by decide!, ?_⟩
  norm_num [zpow_neg]

/-- C3 (amended): from an accumulator of zero, `N` accumulating calls on the same readback
contents each return the same time `t` and leave `accumulatedTime` equal to the left-to-right
`double` sum `((0.0 + t) + t) + ... + t` of `N` terms, every addition rounded to nearest. For
a frequency `f > 0` and `N ≤ 2^52` that sum is a finite non-negative number which differs from
`N * t` by at most `N * 2^-52` of `N * t`. -/
theorem accumulateCalls_sum (p : GPUProfiler) (mappedData : Nat → Nat) (N : Nat)
    (hzero : p.accumulatedTime = Double.zero) :
    (∀ k, ((p.accumulateCalls mappedData k).GetElapsedTime mappedData true).1 =
        (p.GetElapsedTime mappedData true).1) ∧
      (p.accumulateCalls mappedData N).accumulatedTime =
        Nat.iterate (fun a => Double.add a (p.GetElapsedTime mappedData true).1) N Double.zero ∧
      (0 < p.frequency → p.frequency < 2 ^ 64 → mappedData 0 < 2 ^ 64 → mappedData 1 < 2 ^ 64 →
        N ≤ 2 ^ 52 →
        ∃ mt et m e, (p.GetElapsedTime mappedData true).1 = Double.finite false mt et ∧
          (p.accumulateCalls mappedData N).accumulatedTime = Double.finite false m e ∧
          |(m : ℚ) * (2 : ℚ) ^ e - (N : ℚ) * ((mt : ℚ) * (2 : ℚ) ^ et)| ≤
            (N : ℚ) * (2 : ℚ) ^ (-52 : Int) * ((N : ℚ) * ((mt : ℚ) * (2 : ℚ) ^ et))) := by
  have hret : ∀ k, ((p.accumulateCalls mappedData k).GetElapsedTime mappedData true).1 =
      (p.GetElapsedTime mappedData true).1 := by
    intro k
    rw [GPUProfiler.GetElapsedTime_fst, GPUProfiler.GetElapsedTime_fst,
      GPUProfiler.accumulateCalls_frequency]
  have hsum : ∀ n, (p.accumulateCalls mappedData n).accumulatedTime =
      Nat.iterate (fun a => Double.add a (p.GetElapsedTime mappedData true).1) n Double.zero := by
    intro n
    induction n with
    | zero => exact hzero
    | succ n ih =>
      rw [Function.iterate_succ_apply', ← ih, ← hret n]
      rfl
  refine ⟨hret, hsum N, ?_⟩
  intro hf hf64 h0 h1 hN
  rw [hsum N, GPUProfiler.GetElapsedTime_fst]
  by_cases hz : (mappedData 1 + 2 ^ 64 - mappedData 0) % 2 ^ 64 = 0
  · rw [hz, Double.elapsed_zero _ hf hf64]
    refine ⟨0, -1074, 0, -1074, rfl, Double.iterate_add_zero N, ?_⟩
    simp
  · obtain ⟨mt, et, ht, a1, a2, a3, a4⟩ :=
      Double.elapsed_normal ((mappedData 1 + 2 ^ 64 - mappedData 0) % 2 ^ 64) p.frequency
        (by omega) (Nat.mod_lt _ (by positivity)) hf hf64
    rw [ht]
    obtain ⟨m, e, hacc, herr⟩ := Double.iterate_add_err mt et a1 a2 a3 a4 N hN
    exact ⟨mt, et, m, e, rfl, hacc, herr⟩

theorem accumulateCalls_sum_witness :
    (⟨0, 0, 1, 2, 1000000000, Double.zero⟩ : GPUProfiler).accumulatedTime = Double.zero ∧
      ∃ mt et m e,
        ((⟨0, 0, 1, 2, 1000000000, Double.zero⟩ : GPUProfiler).GetElapsedTime
            (fun i => if i = 0 then 0 else 100000) true).1 = Double.finite false mt et ∧
          ((⟨0, 0, 1, 2, 1000000000, Double.zero⟩ : GPUProfiler).accumulateCalls
            (fun i => if i = 0 then 0 else 100000) 6).accumulatedTime = Double.finite false m e ∧
          |(m : ℚ) * (2 : ℚ) ^ e - ((6 : Nat) : ℚ) * ((mt : ℚ) * (2 : ℚ) ^ et)| ≤
            ((6 : Nat) : ℚ) * (2 : ℚ) ^ (-52 : Int) *
              (((6 : Nat) : ℚ) * ((mt : ℚ) * (2 : ℚ) ^ et)) :=
  ⟨rfl,
    (accumulateCalls_sum ⟨0, 0, 1, 2, 1000000000, Double.zero⟩
      (fun i => if i = 0 then 0 else 100000) 6 rfl).2.2
      (by decide) (by decide) (by decide) (by decide) (by decide)⟩

/-- C4: `Reset` hands `a / 10000.0` to the message box, `a` being the accumulator before the
call, and leaves `accumulatedTime` equal to `0.0` whatever `a` was; the frequency and the other
members are unchanged. -/
theorem Reset_spec (p : GPUProfiler) :
    p.Reset.1 = Double.div p.accumulatedTime (Double.ofNat 10000) ∧
      p.Reset.2.accumulatedTime = Double.zero ∧
      p.Reset.2.frequency = p.frequency ∧
      p.Reset.2 = { p with accumulatedTime := Double.zero } ∧
      Double.ofNat 10000 = Double.finite false (10000 * 2 ^ 39) (-39) :=
  ⟨rfl, rfl, rfl, rfl, Double.ofNat_10000⟩

/-- C5: `GetElapsedTime(false)`, which is also the call with the default argument, leaves the
profiler unchanged; `GetElapsedTime(true)` leaves `accumulatedTime` equal to its prior value plus
the returned value and changes nothing else; the returned value does not depend on the flag.
The sum is the rounded `double` sum: from a zero accumulator the new accumulator is the returned
time itself, and from a non-negative finite accumulator (zero or in the normal range) its exact
value is within `2^-53` (relatively) of the exact sum of the prior and the returned value. -/
theorem GetElapsedTime_accumulator (p : GPUProfiler) (mappedData : Nat → Nat) :
    (p.GetElapsedTime mappedData false).2 = p ∧
      p.GetElapsedTimeDefault mappedData = p.GetElapsedTime mappedData false ∧
      (p.GetElapsedTime mappedData true).2.accumulatedTime =
        Double.add p.accumulatedTime (p.GetElapsedTime mappedData true).1 ∧
      (p.GetElapsedTime mappedData true).2 =
        { p with accumulatedTime :=
            Double.add p.accumulatedTime (p.GetElapsedTime mappedData true).1 } ∧
      (p.GetElapsedTime mappedData true).1 = (p.GetElapsedTime mappedData false).1 ∧
      (p.accumulatedTime = Double.zero → 0 < p.frequency → p.frequency < 2 ^ 64 →
        mappedData 0 < 2 ^ 64 → mappedData 1 < 2 ^ 64 →
        (p.GetElapsedTime mappedData true).2.accumulatedTime =
          (p.GetElapsedTime mappedData true).1) ∧
      (∀ (m1 : Nat) (e1 : Int), p.accumulatedTime = Double.finite false m1 e1 →
        0 < p.frequency → p.frequency < 2 ^ 64 →
        mappedData 0 < 2 ^ 64 → mappedData 1 < 2 ^ 64 →
        (m1 = 0 ∨ (2 : ℚ) ^ (-1022 : Int) ≤ (m1 : ℚ) * (2 : ℚ) ^ e1) →
        (m1 : ℚ) * (2 : ℚ) ^ e1 < (2 : ℚ) ^ (1022 : Int) →
        ∃ mt et m e, (p.GetElapsedTime mappedData true).1 = Double.finite false mt et ∧
          (p.GetElapsedTime mappedData true).2.accumulatedTime = Double.finite false m e ∧
          |(m : ℚ) * (2 : ℚ) ^ e - ((m1 : ℚ) * (2 : ℚ) ^ e1 + (mt : ℚ) * (2 : ℚ) ^ et)| ≤
            (2 : ℚ) ^ (-53 : Int) * ((m1 : ℚ) * (2 : ℚ) ^ e1 + (mt : ℚ) * (2 : ℚ) ^ et)) := by
  have hacc : (p.GetElapsedTime mappedData true).2.accumulatedTime =
      Double.add p.accumulatedTime (p.GetElapsedTime mappedData true).1 := rfl
  refine ⟨rfl, rfl, rfl, rfl, rfl, ?_, ?_⟩
  · intro hz hf hf64 h0 h1
    rw [hacc, hz, GPUProfiler.GetElapsedTime_fst]
    by_cases hd : (mappedData 1 + 2 ^ 64 - mappedData 0) % 2 ^ 64 = 0
    · rw [hd, Double.elapsed_zero _ hf hf64]
      decide
    · obtain ⟨mt, et, ht, a1, a2, a3, a4⟩ :=
        Double.elapsed_normal ((mappedData 1 + 2 ^ 64 - mappedData 0) % 2 ^ 64) p.frequency
          (by omega) (Nat.mod_lt _ (by positivity)) hf hf64
      rw [ht]
      exact Double.add_zero_left mt et a1 a2 (by omega) (by omega)
  · intro m1 e1 hp hf hf64 h0 h1 hA hhi
    rw [hacc, hp, GPUProfiler.GetElapsedTime_fst]
    by_cases hd : (mappedData 1 + 2 ^ 64 - mappedData 0) % 2 ^ 64 = 0
    · rw [hd, Double.elapsed_zero _ hf hf64]
      obtain ⟨m, e, hadd, herr⟩ := Double.add_zero_right_val m1 e1 hA hhi
      exact ⟨0, -1074, m, e, rfl, hadd, herr⟩
    · obtain ⟨mt, et, ht, a1, a2, a3, a4⟩ :=
        Double.elapsed_normal ((mappedData 1 + 2 ^ 64 - mappedData 0) % 2 ^ 64) p.frequency
          (by omega) (Nat.mod_lt _ (by positivity)) hf hf64
      rw [ht]
      obtain ⟨hT1, hT2⟩ := Double.normal_val_bounds mt et a1 a2 a3 a4
      have hA0 : (0 : ℚ) ≤ (m1 : ℚ) * (2 : ℚ) ^ e1 := by positivity
      have hc1 : (2 : ℚ) ^ (-1022 : Int) ≤ (2 : ℚ) ^ (-56 : Int) :=
        zpow_le_zpow_right₀ (by norm_num) (by norm_num)
      have hc2 : (2 : ℚ) ^ (1022 : Int) + (2 : ℚ) ^ (77 : Int) ≤ (2 : ℚ) ^ (1023 : Int) := by
        have h77 : (2 : ℚ) ^ (77 : Int) ≤ (2 : ℚ) ^ (1022 : Int) :=
          zpow_le_zpow_right₀ (by norm_num) (by norm_num)
        have h23 : (2 : ℚ) ^ (1023 : Int) = (2 : ℚ) ^ (1022 : Int) * 2 := by
          rw [← zpow_add_one₀ (by norm_num : (2 : ℚ) ≠ 0)]; norm_num
        rw [h23]; linarith
      obtain ⟨m, e, hadd, _, _, herr⟩ :=
        Double.add_val m1 mt e1 et (by linarith) (by linarith)
      exact ⟨mt, et, m, e, rfl, hadd, herr⟩

set_option maxRecDepth 100000 in
theorem GetElapsedTime_accumulator_witness :
    ((⟨0, 0, 1, 2, 1000, Double.finite false (2 ^ 52) (-52)⟩ : GPUProfiler).GetElapsedTime
          (fun i => if i = 0 then 3 else 5) true).1 = Double.finite false (2 ^ 52) (-51) ∧
      ((⟨0, 0, 1, 2, 1000, Double.finite false (2 ^ 52) (-52)⟩ : GPUProfiler).GetElapsedTime
          (fun i => if i = 0 then 3 else 5) true).2.accumulatedTime =
        Double.finite false (3 * 2 ^ 51) (-51) ∧
      ∃ mt et m e,
        ((⟨0, 0, 1, 2, 1000, Double.finite false (2 ^ 52) (-52)⟩ : GPUProfiler).GetElapsedTime
            (fun i => if i = 0 then 3 else 5) true).1 = Double.finite false mt et ∧
          ((⟨0, 0, 1, 2, 1000, Double.finite false (2 ^ 52) (-52)⟩ : GPUProfiler).GetElapsedTime
            (fun i => if i = 0 then 3 else 5) true).2.accumulatedTime = Double.finite false m e ∧
          |(m : ℚ) * (2 : ℚ) ^ e -
              (((2 ^ 52 : Nat) : ℚ) * (2 : ℚ) ^ (-52 : Int) + (mt : ℚ) * (2 : ℚ) ^ et)| ≤
            (2 : ℚ) ^ (-53 : Int) *
              (((2 ^ 52 : Nat) : ℚ) * (2 : ℚ) ^ (-52 : Int) + (mt : ℚ) * (2 : ℚ) ^ et) :=
  ⟨by decide!, by decide!,
    (GetElapsedTime_accumulator ⟨0, 0, 1, 2, 1000, Double.finite false (2 ^ 52) (-52)⟩
      (fun i => if i = 0 then 3 else 5)).2.2.2.2.2.2 (2 ^ 52) (-52) rfl
      (by decide) (by decide) (by decide) (by decide)
      (Or.inr (by norm_num [zpow_neg])) (by norm_num [zpow_neg])⟩

/-- C6 (as stated, refuted): when all three runtime calls succeed and the frequency query
yields `0`, construction succeeds with `frequency = 0`, and `GetElapsedTime` then divides by a
zero frequency and returns `+∞`. -/
theorem ctor_zero_frequency :
    GPUProfiler.ctor ⟨(0, 1), (0, 2), (0, 0)⟩ 7 8 = some ⟨7, 8, 1, 2, 0, Double.zero⟩ ∧
      (⟨7, 8, 1, 2, 0, Double.zero⟩ : GPUProfiler).frequency = 0 ∧
      ((⟨7, 8, 1, 2, 0, Double.zero⟩ : GPUProfiler).GetElapsedTime (fun i => i) false).1 =
        Double.inf false := by
  refine ⟨by decide, rfl, by decide⟩

/-- C6 (amended): construction surfaces an error exactly when one of the three runtime calls,
among them the frequency query, fails; a frequency query that succeeds is stored as it is, also
when it yields `0`, and with `frequency = 0` `GetElapsedTime` divides by zero in `double`
arithmetic: it returns `+∞` when the two timestamps differ and NaN when they are equal. -/
theorem ctor_spec (rt : Runtime) (device commandQueue : Nat) :
    ((GPUProfiler.ctor rt device commandQueue).isSome =
        (SUCCEEDED rt.CreateQueryHeap.1 && SUCCEEDED rt.CreateCommittedResource.1 &&
          SUCCEEDED rt.GetTimestampFrequency.1)) ∧
      (SUCCEEDED rt.GetTimestampFrequency.1 = false →
        GPUProfiler.ctor rt device commandQueue = none) ∧
      (∀ p, GPUProfiler.ctor rt device commandQueue = some p →
        p.frequency = rt.GetTimestampFrequency.2 ∧ p.accumulatedTime = Double.zero ∧
        (p.frequency = 0 → ∀ (mappedData : Nat → Nat) (accumulate : Bool),
          mappedData 0 < 2 ^ 64 → mappedData 1 < 2 ^ 64 →
          (p.GetElapsedTime mappedData accumulate).1 =
            if mappedData 1 = mappedData 0 then Double.nan else Double.inf false)) := by
  have hfreq : ∀ p : GPUProfiler, p.frequency = 0 → ∀ (mappedData : Nat → Nat) (accumulate : Bool),
      mappedData 0 < 2 ^ 64 → mappedData 1 < 2 ^ 64 →
      (p.GetElapsedTime mappedData accumulate).1 =
        if mappedData 1 = mappedData 0 then Double.nan else Double.inf false := by
    intro p hf mappedData accumulate h0 h64
    rw [GPUProfiler.GetElapsedTime_fst, hf,
      Double.elapsed_zero_frequency _ (Nat.mod_lt _ (by positivity))]
    by_cases heq : mappedData 1 = mappedData 0
    · rw [if_pos heq, if_pos (by omega)]
    · rw [if_neg heq, if_neg (by omega)]
  rw [GPUProfiler.ctor_eq]
  cases h1 : SUCCEEDED rt.CreateQueryHeap.1 <;>
    cases h2 : SUCCEEDED rt.CreateCommittedResource.1 <;>
    cases h3 : SUCCEEDED rt.GetTimestampFrequency.1 <;>
    simp only [Bool.false_eq_true, if_true, if_false,
      Option.isSome_none, Option.isSome_some, Bool.and_self, Bool.and_false, Bool.and_true,
      Bool.false_and, Bool.true_and,
      true_and, true_implies, false_implies, and_true, reduceCtorEq, implies_true,
      Option.some.injEq]
  intro p hp
  cases hp
  exact ⟨rfl, rfl, hfreq _⟩

/-- C7: `BeginQuery` appends to the command list exactly one command, a timestamp write into
query slot 0; `EndQueryAndResolve` appends exactly two, a timestamp write into slot 1 followed
by the resolve of two queries from index 0 into the readback buffer at offset 0. Both keep the
commands recorded before, submit nothing and leave the profiler unchanged. -/
theorem recording_spec (p : GPUProfiler) (cs : CommandStream) :
    (p.BeginQuery cs).2.commandList =
        cs.commandList ++ [Command.EndQuery p.queryHeap D3D12_QUERY_TYPE.TIMESTAMP 0] ∧
      (p.EndQueryAndResolve cs).2.commandList =
        cs.commandList ++
          [Command.EndQuery p.queryHeap D3D12_QUERY_TYPE.TIMESTAMP 1,
            Command.ResolveQueryData p.queryHeap D3D12_QUERY_TYPE.TIMESTAMP 0 2
              p.readbackBuffer 0] ∧
      (p.BeginQuery cs).2.submitted = cs.submitted ∧
      (p.EndQueryAndResolve cs).2.submitted = cs.submitted ∧
      (p.BeginQuery cs).1 = p ∧ (p.EndQueryAndResolve cs).1 = p := by
  refine ⟨rfl, ?_, rfl, rfl, rfl, rfl⟩
  simp [GPUProfiler.EndQueryAndResolve]

/-- C8: for a frequency `f > 0` `GetElapsedTime` never returns a negative time: the result is
a finite `double` with a clear sign bit. When `end < start` the unsigned difference wraps to
`2^64 - (start - end)` before the conversion, and the result is the positive number
`(2^64 - (start - end)) / f * 1000` (within `2^-50`, relatively, of the exact quotient). -/
theorem GetElapsedTime_not_negative (p : GPUProfiler) (mappedData : Nat → Nat)
    (accumulate : Bool) (h0 : mappedData 0 < 2 ^ 64) (h1 : mappedData 1 < 2 ^ 64)
    (hf : 0 < p.frequency) (hf64 : p.frequency < 2 ^ 64) :
    Double.isNegative (p.GetElapsedTime mappedData accumulate).1 = false ∧
      (∃ m e, (p.GetElapsedTime mappedData accumulate).1 = Double.finite false m e) ∧
      (mappedData 1 < mappedData 0 →
        (mappedData 1 + 2 ^ 64 - mappedData 0) % 2 ^ 64 =
            2 ^ 64 - (mappedData 0 - mappedData 1) ∧
          (p.GetElapsedTime mappedData accumulate).1 =
            Double.mul
              (Double.div (Double.ofUInt64 (2 ^ 64 - (mappedData 0 - mappedData 1)))
                (Double.ofUInt64 p.frequency))
              (Double.ofNat 1000) ∧
          ∃ m e, (p.GetElapsedTime mappedData accumulate).1 = Double.finite false m e ∧
            2 ^ 52 ≤ m ∧
            |(m : ℚ) * (2 : ℚ) ^ e -
                ((2 : ℚ) ^ 64 - ((mappedData 0 : ℚ) - (mappedData 1 : ℚ))) /
                  (p.frequency : ℚ) * 1000| ≤
              (2 : ℚ) ^ (-50 : Int) *
                (((2 : ℚ) ^ 64 - ((mappedData 0 : ℚ) - (mappedData 1 : ℚ))) /
                  (p.frequency : ℚ) * 1000)) := by
  have hfin : ∃ m e, (p.GetElapsedTime mappedData accumulate).1 = Double.finite false m e := by
    rw [GPUProfiler.GetElapsedTime_fst]
    by_cases hz : (mappedData 1 + 2 ^ 64 - mappedData 0) % 2 ^ 64 = 0
    · rw [hz, Double.elapsed_zero _ hf hf64]
      exact ⟨_, _, rfl⟩
    · obtain ⟨m, e, hr, _⟩ :=
        Double.elapsed_normal ((mappedData 1 + 2 ^ 64 - mappedData 0) % 2 ^ 64) p.frequency
          (by omega) (Nat.mod_lt _ (by positivity)) hf hf64
      exact ⟨m, e, hr⟩
  refine ⟨?_, hfin, ?_⟩
  · obtain ⟨m, e, hr⟩ := hfin
    rw [hr]
    rfl
  · intro hlt
    have hd : (mappedData 1 + 2 ^ 64 - mappedData 0) % 2 ^ 64 =
        2 ^ 64 - (mappedData 0 - mappedData 1) := by omega
    refine ⟨hd, by rw [GPUProfiler.GetElapsedTime_fst, hd], ?_⟩
    rw [GPUProfiler.GetElapsedTime_fst, hd]
    obtain ⟨m, e, hr, hm, _, _, _, herr⟩ :=
      Double.elapsed_val (2 ^ 64 - (mappedData 0 - mappedData 1)) p.frequency (by omega)
        (by omega) hf hf64
    refine ⟨m, e, hr, hm, ?_⟩
    have hc : ((2 ^ 64 - (mappedData 0 - mappedData 1) : Nat) : ℚ) =
        (2 : ℚ) ^ 64 - ((mappedData 0 : ℚ) - (mappedData 1 : ℚ)) := by
      rw [Nat.cast_sub (by omega), Nat.cast_sub (by omega)]
      norm_num
    rw [← hc]
    exact herr

theorem GetElapsedTime_not_negative_witness :
    Double.isNegative
        ((⟨0, 0, 1, 2, 1000, Double.zero⟩ : GPUProfiler).GetElapsedTime
          (fun i => if i = 0 then 5 else 3) false).1 = false :=
  (GetElapsedTime_not_negative ⟨0, 0, 1, 2, 1000, Double.zero⟩ (fun i => if i = 0 then 5 else 3)
    false (by decide) (by decide) (by decide) (by decide)).1

/-! ## `Utils::NextPowerOfTwo` -/

namespace Utils

theorem testBit_lor_shiftRight (x s i : Nat) :
    (x ||| (x >>> s)).testBit i = (x.testBit i || x.testBit (i + s)) := by
  rw [Nat.testBit_lor, Nat.testBit_shiftRight, Nat.add_comm]

/-- One smearing step doubles the width of the window of source bits feeding each result bit. -/
theorem smear_step (w x n : Nat)
    (h : ∀ i, x.testBit i = true ↔ ∃ c, c < n ∧ w.testBit (i + c) = true) :
    ∀ i, (x ||| (x >>> n)).testBit i = true ↔ ∃ c, c < 2 * n ∧ w.testBit (i + c) = true := by
  intro i
  rw [testBit_lor_shiftRight, Bool.or_eq_true, h, h]
  constructor
  · rintro (⟨c, hc, hb⟩ | ⟨c, hc, hb⟩)
    · exact ⟨c, by omega, hb⟩
    · exact ⟨n + c, by omega, by rw [← Nat.add_assoc]; exact hb⟩
  · rintro ⟨c, hc, hb⟩
    by_cases hlt : c < n
    · exact Or.inl ⟨c, hlt, hb⟩
    · refine Or.inr ⟨c - n, by omega, ?_⟩
      have : i + n + (c - n) = i + c := by omega
      rw [this]; exact hb

theorem testBit_top (w L : Nat) (hL : 0 < L) (hlo : 2 ^ (L - 1) ≤ w) (hhi : w < 2 ^ L) :
    w.testBit (L - 1) = true := by
  rw [Nat.testBit_to_div_mod]
  have h2 : 2 ^ L = 2 * 2 ^ (L - 1) := by
    obtain ⟨k, rfl⟩ : ∃ k, L = k + 1 := ⟨L - 1, by omega⟩
    simp [pow_succ, Nat.mul_comm]
  have hpos : 0 < 2 ^ (L - 1) := by positivity
  have : w / 2 ^ (L - 1) = 1 := by
    apply Nat.div_eq_of_lt_le
    · simpa using hlo
    · rw [h2] at hhi; simpa [Nat.mul_comm] using hhi
  simp [this]

theorem smear_testBit (w i : Nat) :
    (smear w).testBit i = true ↔ ∃ c, c < 64 ∧ w.testBit (i + c) = true := by
  have h0 : ∀ i, w.testBit i = true ↔ ∃ c, c < 1 ∧ w.testBit (i + c) = true := by
    intro i
    constructor
    · intro h; exact ⟨0, by omega, by simpa using h⟩
    · rintro ⟨c, hc, hb⟩
      have : c = 0 := by omega
      subst this; simpa using hb
  have h1 := smear_step w _ 1 h0
  have h2 := smear_step w _ 2 h1
  have h3 := smear_step w _ 4 h2
  have h4 := smear_step w _ 8 h3
  have h5 := smear_step w _ 16 h4
  have h6 := smear_step w _ 32 h5
  exact h6 i

theorem smear_eq (w L : Nat) (hL64 : L ≤ 64) (hhi : w < 2 ^ L)
    (hlo : L = 0 ∨ 2 ^ (L - 1) ≤ w) : smear w = 2 ^ L - 1 := by
  apply Nat.eq_of_testBit_eq
  intro i
  rw [Nat.testBit_two_pow_sub_one]
  by_cases hi : i < L
  · have hLpos : 0 < L := by omega
    have hlo2 : 2 ^ (L - 1) ≤ w := by
      rcases hlo with h | h
      · omega
      · exact h
    have htop := testBit_top w L hLpos hlo2 hhi
    have : (smear w).testBit i = true := by
      rw [smear_testBit]
      refine ⟨L - 1 - i, by omega, ?_⟩
      have : i + (L - 1 - i) = L - 1 := by omega
      rw [this]; exact htop
    simp [this, hi]
  · have : (smear w).testBit i = false := by
      rw [← Bool.not_eq_true, smear_testBit]
      rintro ⟨c, _, hb⟩
      have hge := Nat.testBit_implies_ge hb
      have : 2 ^ L ≤ 2 ^ (i + c) := Nat.pow_le_pow_right (by decide) (by omega)
      omega
    simp [this, hi]

theorem NextPowerOfTwo_eq (v : Nat) :
    NextPowerOfTwo v = (smear ((v + 2^64 - 1) % 2^64) + 1) % 2^64 := rfl

theorem exists_bitlen (w : Nat) : ∃ L, w < 2 ^ L ∧ (L = 0 ∨ 2 ^ (L - 1) ≤ w) := by
  refine ⟨Nat.size w, Nat.lt_size_self w, ?_⟩
  by_cases h : Nat.size w = 0
  · exact Or.inl h
  · right
    have : Nat.size w - 1 < Nat.size w := by omega
    exact Nat.lt_size.mp this

theorem NextPowerOfTwo_in_range (v : Nat) (h1 : 1 ≤ v) (h2 : v ≤ 2 ^ 63) :
    ∃ L, L ≤ 63 ∧ NextPowerOfTwo v = 2 ^ L ∧ v ≤ 2 ^ L ∧ (L = 0 ∨ 2 ^ (L - 1) < v) := by
  obtain ⟨L, hhi, hlo⟩ := exists_bitlen (v - 1)
  have hw : (v + 2 ^ 64 - 1) % 2 ^ 64 = v - 1 := by omega
  have hL63 : L ≤ 63 := by
    by_contra hc
    have hc2 : 64 ≤ L := by omega
    rcases hlo with h | h
    · omega
    · have : 2 ^ 63 ≤ 2 ^ (L - 1) := Nat.pow_le_pow_right (by decide) (by omega)
      omega
  have hsm := smear_eq (v - 1) L (by omega) hhi hlo
  have hpos : 0 < 2 ^ L := by positivity
  have hle : 2 ^ L ≤ 2 ^ 63 := Nat.pow_le_pow_right (by decide) hL63
  refine ⟨L, hL63, ?_, by omega, ?_⟩
  · rw [NextPowerOfTwo_eq, hw, hsm]
    have : 2 ^ L - 1 + 1 = 2 ^ L := by omega
    rw [this]
    apply Nat.mod_eq_of_lt
    omega
  · rcases hlo with h | h
    · exact Or.inl h
    · right; omega

theorem NextPowerOfTwo_wraps (v : Nat) (hv : v < 2 ^ 64) (h : v = 0 ∨ 2 ^ 63 < v) :
    NextPowerOfTwo v = 0 := by
  have hsm : smear ((v + 2 ^ 64 - 1) % 2 ^ 64) = 2 ^ 64 - 1 := by
    apply smear_eq _ 64 (le_refl _)
    · exact Nat.mod_lt _ (by positivity)
    · right
      rcases h with h | h
      · subst h; decide
      · have : (v + 2 ^ 64 - 1) % 2 ^ 64 = v - 1 := by omega
        rw [this]
        show 2 ^ 63 ≤ v - 1
        omega
  rw [NextPowerOfTwo_eq, hsm]
  decide

/-- C9: on 1 ≤ v ≤ 2^63 the result is the least power of two that is at least v
(so v ≤ result < 2v and powers of two are fixed points); on v = 0 and on v > 2^63
the 64-bit increment wraps and the result is 0. -/
theorem NextPowerOfTwo_spec (v : Nat) (hv : v < 2 ^ 64) :
    ((1 ≤ v ∧ v ≤ 2 ^ 63) →
        (∃ k, NextPowerOfTwo v = 2 ^ k) ∧ v ≤ NextPowerOfTwo v ∧
        (∀ j, v ≤ 2 ^ j → NextPowerOfTwo v ≤ 2 ^ j) ∧
        NextPowerOfTwo v < 2 * v ∧
        ((∃ k, v = 2 ^ k) → NextPowerOfTwo v = v)) ∧
    ((v = 0 ∨ 2 ^ 63 < v) → NextPowerOfTwo v = 0) := by
  refine ⟨?_, NextPowerOfTwo_wraps v hv⟩
  rintro ⟨h1, h2⟩
  obtain ⟨L, hL, hres, hge, hlo⟩ := NextPowerOfTwo_in_range v h1 h2
  have hmin : ∀ j, v ≤ 2 ^ j → NextPowerOfTwo v ≤ 2 ^ j := by
    intro j hj
    rw [hres]
    apply Nat.pow_le_pow_right (by decide)
    rcases hlo with h | h
    · omega
    · by_contra hc
      have : 2 ^ j ≤ 2 ^ (L - 1) := Nat.pow_le_pow_right (by decide) (by omega)
      omega
  refine ⟨⟨L, hres⟩, by omega, hmin, ?_, ?_⟩
  · rw [hres]
    rcases hlo with h | h
    · subst h; simp; omega
    · have : 2 ^ L = 2 * 2 ^ (L - 1) := by
        obtain ⟨k, rfl⟩ : ∃ k, L = k + 1 := ⟨L - 1, by
          have : L ≠ 0 := by
            rintro rfl
            simp at h
            omega
          omega⟩
        simp [pow_succ, Nat.mul_comm]
      omega
  · rintro ⟨k, hk⟩
    have := hmin k (by omega)
    omega

theorem NextPowerOfTwo_spec_witness :
    5 < 2 ^ 64 ∧ (∃ k, NextPowerOfTwo 5 = 2 ^ k) ∧ 5 ≤ NextPowerOfTwo 5 ∧
      (∀ j, 5 ≤ 2 ^ j → NextPowerOfTwo 5 ≤ 2 ^ j) ∧
      NextPowerOfTwo 5 < 2 * 5 ∧
      ((∃ k, 5 = 2 ^ k) → NextPowerOfTwo 5 = 5) :=
  ⟨by decide, (NextPowerOfTwo_spec 5 (by decide)).1 ⟨by decide, by decide⟩⟩

/-! ## `Utils::ExtractPath` -/

theorem strrchr_eq_wcsrchr (s : List Nat) (c : Nat) : strrchr s c = wcsrchr s c := by
  induction s with
  | nil => simp [strrchr, wcsrchr]
  | cons x xs ih => simp [strrchr, wcsrchr, ih]

theorem wcsrchr_none (s : List Nat) (c : Nat) (hc : c ≠ 0) (hs : 0 ∉ s) :
    wcsrchr s c = none ↔ c ∉ s := by
  induction s with
  | nil => simp [wcsrchr, hc]
  | cons x xs ih =>
    have hx : x ≠ 0 := fun h => hs (by simp [h])
    have hxs : 0 ∉ xs := fun h => hs (by simp [h])
    have ih := ih hxs
    simp only [wcsrchr, hx, if_false]
    cases hr : wcsrchr xs c with
    | none =>
      have := ih.mp hr
      by_cases hxc : x = c
      · simp [hxc]
      · simp [hxc, this, Ne.symm hxc]
    | some j =>
      have : c ∈ xs := by
        by_contra hcon
        rw [ih.mpr hcon] at hr
        cases hr
      simp [this]

theorem wcsrchr_some (s : List Nat) (c k : Nat) (hc : c ≠ 0) (hs : 0 ∉ s)
    (h : wcsrchr s c = some k) :
    k < s.length ∧ s[k]? = some c ∧ ∀ x ∈ s.drop (k + 1), x ≠ c := by
  induction s generalizing k with
  | nil => simp [wcsrchr, hc] at h
  | cons x xs ih =>
    have hx : x ≠ 0 := fun h => hs (by simp [h])
    have hxs : 0 ∉ xs := fun h => hs (by simp [h])
    simp only [wcsrchr, hx, if_false] at h
    cases hr : wcsrchr xs c with
    | none =>
      rw [hr] at h
      by_cases hxc : x = c
      · simp [hxc] at h
        subst h
        have hnot := (wcsrchr_none xs c hc hxs).mp hr
        refine ⟨by simp, by simp [hxc], ?_⟩
        intro y hy
        simp at hy
        rintro rfl
        exact hnot hy
      · simp [hxc] at h
    | some j =>
      rw [hr] at h
      simp at h
      subst h
      obtain ⟨h1, h2, h3⟩ := ih j hxs hr
      refine ⟨by simp; omega, by simpa using h2, ?_⟩
      simpa using h3

theorem mem_drop_mono {l : List Nat} {m n x : Nat} (hmn : n ≤ m) (h : x ∈ l.drop m) :
    x ∈ l.drop n := by
  have : l.drop m = (l.drop n).drop (m - n) := by
    rw [List.drop_drop]; congr 1; omega
  rw [this] at h
  exact List.mem_of_mem_drop h

theorem take_succ_getLast (l : List Nat) (k c : Nat) (h : l[k]? = some c) :
    (l.take (k + 1)).getLast? = some c := by
  induction l generalizing k with
  | nil => simp at h
  | cons x xs ih =>
    cases k with
    | zero => simp at h; simp [h]
    | succ k =>
      simp at h
      have hk := ih k h
      rw [List.take_succ_cons]
      cases hxs : xs.take (k + 1) with
      | nil => rw [hxs] at hk; simp at hk
      | cons y ys => rw [hxs] at hk; simpa [List.getLast?_cons_cons] using hk

/-- The result of cutting `p` after position `k`, where `p[k]` is the separator `c` and no
separator follows. -/
theorem cut_spec (p : List Nat) (k c : Nat) (hc : c = 92 ∨ c = 47) (hk : p[k]? = some c)
    (h92 : 92 ∉ p.drop (k + 1)) (h47 : 47 ∉ p.drop (k + 1)) :
    ∃ sep rest, (sep = 92 ∨ sep = 47) ∧ (p.take (k + 1)).getLast? = some sep ∧
      p.take (k + 1) ++ rest = p ∧ 92 ∉ rest ∧ 47 ∉ rest :=
  ⟨c, p.drop (k + 1), hc, take_succ_getLast p k c hk, List.take_append_drop _ _, h92, h47⟩

theorem ExtractPath_wstring_sep (p : List Nat) (hnul : 0 ∉ p) (hsep : 92 ∈ p ∨ 47 ∈ p) :
    ∃ sep rest, (sep = 92 ∨ sep = 47) ∧
      (ExtractPath_wstring p).getLast? = some sep ∧
      ExtractPath_wstring p ++ rest = p ∧ 92 ∉ rest ∧ 47 ∉ rest := by
  unfold ExtractPath_wstring
  cases hb : wcsrchr p 92 with
  | none =>
    have hb' := (wcsrchr_none p 92 (by decide) hnul).mp hb
    cases hf : wcsrchr p 47 with
    | none =>
      have hf' := (wcsrchr_none p 47 (by decide) hnul).mp hf
      rcases hsep with h | h
      · exact absurd h hb'
      · exact absurd h hf'
    | some f =>
      obtain ⟨_, h2, h3⟩ := wcsrchr_some p 47 f (by decide) hnul hf
      exact cut_spec p f 47 (Or.inr rfl) h2 (fun h => hb' (List.mem_of_mem_drop h))
        (fun h => h3 47 h rfl)
  | some b =>
    obtain ⟨_, b2, b3⟩ := wcsrchr_some p 92 b (by decide) hnul hb
    cases hf : wcsrchr p 47 with
    | none =>
      have hf' := (wcsrchr_none p 47 (by decide) hnul).mp hf
      exact cut_spec p b 92 (Or.inl rfl) b2 (fun h => b3 92 h rfl)
        (fun h => hf' (List.mem_of_mem_drop h))
    | some f =>
      obtain ⟨_, f2, f3⟩ := wcsrchr_some p 47 f (by decide) hnul hf
      by_cases hlt : b < f
      · simp only [hlt, if_true]
        exact cut_spec p f 47 (Or.inr rfl) f2
          (fun h => b3 92 (mem_drop_mono (by omega) h) rfl) (fun h => f3 47 h rfl)
      · simp only [hlt, if_false]
        exact cut_spec p b 92 (Or.inl rfl) b2 (fun h => b3 92 h rfl)
          (fun h => f3 47 (mem_drop_mono (by omega) h) rfl)

theorem ExtractPath_wstring_nosep (p : List Nat) (hnul : 0 ∉ p) (h92 : 92 ∉ p) (h47 : 47 ∉ p) :
    ExtractPath_wstring p = [46, 92] := by
  unfold ExtractPath_wstring
  rw [(wcsrchr_none p 92 (by decide) hnul).mpr h92, (wcsrchr_none p 47 (by decide) hnul).mpr h47]

theorem ExtractPath_string_eq (p : List Nat) : ExtractPath_string p = ExtractPath_wstring p := by
  unfold ExtractPath_string ExtractPath_wstring
  simp only [strrchr_eq_wcsrchr]

/-- C10: for a path without an embedded NUL, `ExtractPath` returns the prefix of the path that
ends with its last separator (backslash `92` or forward slash `47`, whichever comes later): the
result ends in a separator, is followed in the path by a remainder without separators, and is
the two code units `.\` (`46`, `92`) when the path has no separator; the narrow and the wide
overload agree. -/
theorem ExtractPath_spec (p : List Nat) (hnul : 0 ∉ p) :
    ((92 ∈ p ∨ 47 ∈ p) →
      ∃ sep rest, (sep = 92 ∨ sep = 47) ∧
        (ExtractPath_wstring p).getLast? = some sep ∧
        ExtractPath_wstring p ++ rest = p ∧ 92 ∉ rest ∧ 47 ∉ rest) ∧
    ((92 ∉ p ∧ 47 ∉ p) → ExtractPath_wstring p = [46, 92]) ∧
    ExtractPath_string p = ExtractPath_wstring p :=
  ⟨ExtractPath_wstring_sep p hnul, fun h => ExtractPath_wstring_nosep p hnul h.1 h.2,
    ExtractPath_string_eq p⟩

theorem ExtractPath_spec_witness :
    (0 ∉ [67, 58, 92, 97, 47, 98]) ∧
    ((92 ∈ [67, 58, 92, 97, 47, 98] ∨ 47 ∈ [67, 58, 92, 97, 47, 98]) →
      ∃ sep rest, (sep = 92 ∨ sep = 47) ∧
        (ExtractPath_wstring [67, 58, 92, 97, 47, 98]).getLast? = some sep ∧
        ExtractPath_wstring [67, 58, 92, 97, 47, 98] ++ rest = [67, 58, 92, 97, 47, 98] ∧
        92 ∉ rest ∧ 47 ∉ rest) :=
  ⟨by decide, (ExtractPath_spec [67, 58, 92, 97, 47, 98] (by decide)).1⟩

end Utils
